import Mathlib

/-!
Verification development for the fittrack waiting-list / queue-promotion
subsystem (`backend/app/repositories/waiting_list.py`,
`backend/app/services/waiting_list_service.py`,
`backend/app/api/waiting_list_api.py`).

The repository class `db_waiting_list` is shallowly embedded: the relational
tables become lists of records inside a `DB` value, each repository method
becomes a pure function threading the `DB` state explicitly, the wall clock
(`datetime.now()`) becomes an explicit integer-seconds parameter, and Python
exceptions become an `AppErr` sum returned through `Except` (or paired with
the post-state where the source commits before raising).
-/

namespace FitTrack

/-- `WaitingListStatus` enum from `models/enums.py`. -/
inductive WaitingListStatus where
  | WAITING
  | ASSIGNED
  | CONFIRMED
  | EXPIRED
  | CANCELLED
deriving DecidableEq, Repr

/-- `SessionStatus` enum from `models/enums.py`. -/
inductive SessionStatus where
  | OPEN
  | FULL
  | CANCELLED
  | COMPLETED
  | CLOSED
deriving DecidableEq, Repr

/-- `EnrollmentStatus` enum from `models/enums.py`. -/
inductive EnrollmentStatus where
  | REGISTERED
  | CANCELED
  | ATTENDED
  | NO_SHOW
deriving DecidableEq, Repr

/-- `SubscriptionStatus` enum from `models/enums.py`. -/
inductive SubscriptionStatus where
  | ACTIVE
  | FROZEN
  | EXPIRED
  | BLOCKED
deriving DecidableEq, Repr

/-- `PlanType` enum from `models/enums.py`. -/
inductive PlanType where
  | MONTHLY
  | YEARLY
  | WEEKLY
  | DAILY
  | VIP
deriving DecidableEq, Repr

/-- Row of the `waiting_list` table (`models/WaitingList.py`).  Timestamps are
integer seconds; `position` is a signed database integer. -/
structure WaitingListEntry where
  id : Nat
  classSessionId : Nat
  memberId : Nat
  status : WaitingListStatus
  position : Int
  priorityScore : Int
  createdAt : Int
  assignedAt : Option Int
  approvalDeadline : Option Int
  confirmedAt : Option Int
  cancelledAt : Option Int
deriving DecidableEq, Repr

/-- Row of the `enrollments` table (`models/Enrollment.py`), the fields the
queue engine touches. -/
structure Enrollment where
  id : Nat
  classSessionId : Nat
  memberId : Nat
  status : EnrollmentStatus
  createdAt : Int
deriving DecidableEq, Repr

/-- Row of the `class_session` table, the fields the queue engine touches. -/
structure ClassSession where
  id : Nat
  status : SessionStatus
deriving DecidableEq, Repr

/-- Row of the `members` table, the fields the queue engine touches. -/
structure Member where
  id : Nat
  fullname : String
deriving DecidableEq, Repr

/-- Row of the `subscriptions` table, the fields the queue engine touches. -/
structure Subscription where
  memberId : Nat
  planId : Nat
  status : SubscriptionStatus
deriving DecidableEq, Repr

/-- Row of the `plans` table, the fields the queue engine touches. -/
structure Plan where
  id : Nat
  planType : PlanType
deriving DecidableEq, Repr

/-- The database state the waiting-list repository reads and writes.
`nextId` models the fresh-identifier generator `_id15` (uuid-based in the
source): each created row receives a previously unused id. -/
structure DB where
  sessions : List ClassSession
  members : List Member
  enrollments : List Enrollment
  subscriptions : List Subscription
  plans : List Plan
  waitingList : List WaitingListEntry
  nextId : Nat
deriving DecidableEq, Repr

/-- The exception taxonomy raised by the repository
(`exceptions.NotFoundError`, `exceptions.DuplicateError`,
`exceptions.AppError`). -/
inductive AppErr where
  | NotFoundError (msg : String)
  | DuplicateError (msg : String)
  | AppError (msg : String)
deriving DecidableEq, Repr

/-- The `session.query(Subscription, Plan).join(Plan, ...)` lookup in
`calculate_priority_score`: first active subscription of the member, joined to
its plan. -/
def activeSubPlan (db : DB) (memberId : Nat) : Option Plan :=
  ((db.subscriptions.filter
      (fun s => s.memberId == memberId && s.status == SubscriptionStatus.ACTIVE)).filterMap
    (fun s => db.plans.find? (fun p => p.id == s.planId))).head?

/-- `db_waiting_list.calculate_priority_score`.  `createdAt` is the
`created_at` argument; `now` is the value of the `datetime.now()` call inside
the method.  Python `int()` on the fractional hour count truncates toward
zero, which is `Int.tdiv` on the exact quotient of seconds by 3600. -/
def calculate_priority_score (db : DB) (memberId : Nat) (createdAt now : Int) : Int :=
  let base : Int :=
    match activeSubPlan db memberId with
    | some plan => if plan.planType == PlanType.VIP then 1000 else 100
    | none => 0
  base + Int.tdiv (now - createdAt) 3600

/-- The row predicate of the repeated
`query(WaitingList).filter(class_session_id == sid, status == WAITING)`. -/
def waitingPred (sessionId : Nat) (e : WaitingListEntry) : Bool :=
  e.classSessionId == sessionId && e.status == WaitingListStatus.WAITING

/-- The `WAITING` entries of one session among the given table rows, in table
order. -/
def waitingOf (l : List WaitingListEntry) (sessionId : Nat) : List WaitingListEntry :=
  l.filter (waitingPred sessionId)

/-- The `WAITING` entries of one session, in table order
(the repeated `query(WaitingList).filter(class_session_id, status WAITING)`
of the source). -/
def waitingFor (db : DB) (sessionId : Nat) : List WaitingListEntry :=
  waitingOf db.waitingList sessionId

/-- The `final_position` loop of `add_to_waiting_list`: starting from
`position` (= count of `WAITING` entries + 1), take the minimum with the
position of every existing entry that the new entry should precede (strictly
lower score, or equal score with a strictly later `created_at`). -/
def finalPositionFold (entries : List WaitingListEntry) (score now start : Int) : Int :=
  entries.foldl
    (fun fp entry =>
      if score > entry.priorityScore then min fp entry.position
      else if score == entry.priorityScore && now < entry.createdAt then
        min fp entry.position
      else fp)
    start

/-- The position-shift loop of `add_to_waiting_list`: every `WAITING` entry of
the session whose position is at or after the insertion rank moves down by
one. -/
def shiftEntry (sessionId : Nat) (fp : Int) (entry : WaitingListEntry) : WaitingListEntry :=
  if entry.classSessionId == sessionId && entry.status == WaitingListStatus.WAITING &&
     entry.position ≥ fp then
    { entry with position := entry.position + 1 }
  else entry

/-- The `priority_score` local of `add_to_waiting_list`. -/
def addScore (db : DB) (memberId : Nat) (now nowCalc : Int) : Int :=
  calculate_priority_score db memberId now nowCalc

/-- The `final_position` local of `add_to_waiting_list`: the insertion fold
started at `position` = count of `WAITING` entries + 1. -/
def addFinalPosition (db : DB) (classSessionId memberId : Nat) (now nowCalc : Int) : Int :=
  finalPositionFold (waitingFor db classSessionId) (addScore db memberId now nowCalc) now
    (((waitingFor db classSessionId).length : Int) + 1)

/-- The `wl_entry` record created by `add_to_waiting_list`. -/
def addNewEntry (db : DB) (classSessionId memberId : Nat) (now nowCalc : Int) :
    WaitingListEntry :=
  { id := db.nextId
    classSessionId := classSessionId
    memberId := memberId
    status := WaitingListStatus.WAITING
    position := addFinalPosition db classSessionId memberId now nowCalc
    priorityScore := addScore db memberId now nowCalc
    createdAt := now
    approvalDeadline := none
    assignedAt := none
    confirmedAt := none
    cancelledAt := none }

/-- The mutation tail of `add_to_waiting_list` after all validations pass:
shift the displaced positions, append the new row, commit. -/
def addInsert (db : DB) (classSessionId memberId : Nat) (now nowCalc : Int) :
    DB × WaitingListEntry :=
  ({ db with
      waitingList :=
        db.waitingList.map
          (shiftEntry classSessionId (addFinalPosition db classSessionId memberId now nowCalc))
        ++ [addNewEntry db classSessionId memberId now nowCalc]
      nextId := db.nextId + 1 },
   addNewEntry db classSessionId memberId now nowCalc)

/-- `db_waiting_list.add_to_waiting_list`.  `now` is the `datetime.now()`
captured into the local `now`; `nowCalc` is the later `datetime.now()` read
inside the nested `calculate_priority_score` call. -/
def add_to_waiting_list (db : DB) (classSessionId memberId : Nat) (now nowCalc : Int) :
    Except AppErr (DB × WaitingListEntry) :=
  match db.sessions.find? (fun s => s.id == classSessionId) with
  | none => .error (.NotFoundError "Class session not found")
  | some cs =>
    if cs.status == SessionStatus.CLOSED then
      .error (.AppError "Session registration is closed")
    else
      match db.members.find? (fun m => m.id == memberId) with
      | none => .error (.NotFoundError "Member not found")
      | some _ =>
        if (db.enrollments.find? (fun e =>
              e.classSessionId == classSessionId && e.memberId == memberId &&
              e.status == EnrollmentStatus.REGISTERED)).isSome then
          .error (.DuplicateError "Member is already enrolled in this session")
        else if (db.waitingList.find? (fun w =>
              w.classSessionId == classSessionId && w.memberId == memberId &&
              (w.status == WaitingListStatus.WAITING ||
               w.status == WaitingListStatus.ASSIGNED))).isSome then
          .error (.DuplicateError "Member is already on the waiting list")
        else
          .ok (addInsert db classSessionId memberId now nowCalc)

/-- First row (in table order) among those with minimal `position` (helper for
the `order_by(position.asc()).first()` query). -/
def minByPos (l : List WaitingListEntry) : Option WaitingListEntry :=
  l.foldl
    (fun acc e =>
      match acc with
      | none => some e
      | some b => if e.position < b.position then some e else acc)
    none

/-- The `order_by(position.asc()).first()` query of `promote_from_queue`. -/
def headWaiting (db : DB) (sessionId : Nat) : Option WaitingListEntry :=
  minByPos (waitingFor db sessionId)

/-- The field updates `promote_from_queue` applies to the promoted entry. -/
def assignStamp (first : WaitingListEntry) (now deadline : Int) : WaitingListEntry :=
  { first with
    status := WaitingListStatus.ASSIGNED
    assignedAt := some now
    approvalDeadline := some deadline }

/-- The per-row update of `promote_from_queue`: the head becomes the promoted
record; every other still-`WAITING` entry of the session has its position
decremented (floored at 1 by the source's `max(1, position - 1)`). -/
def promoteShift (sessionId : Nat) (first promoted : WaitingListEntry)
    (entry : WaitingListEntry) : WaitingListEntry :=
  if entry.id == first.id then promoted
  else if entry.classSessionId == sessionId &&
          entry.status == WaitingListStatus.WAITING then
    { entry with position := max 1 (entry.position - 1) }
  else entry

/-- `db_waiting_list.promote_from_queue`.  `now` is the `datetime.now()` read;
`approvalDeadlineHours` is the keyword argument (the source default is 24);
`timedelta(hours=h)` is `h * 3600` seconds. -/
def promote_from_queue (db : DB) (classSessionId : Nat) (now : Int)
    (approvalDeadlineHours : Int) : DB × Option WaitingListEntry :=
  match headWaiting db classSessionId with
  | none => (db, none)
  | some first =>
    let promoted := assignStamp first (now) (now + approvalDeadlineHours * 3600)
    ({ db with
        waitingList := db.waitingList.map (promoteShift classSessionId first promoted) },
     some promoted)

/-- In-place status overwrite of the row with the given id (the
`entry.status = EXPIRED.value` assignments of `confirm_assignment` and
`check_expired_assignments`). -/
def setStatusById (l : List WaitingListEntry) (wlId : Nat) (st : WaitingListStatus) :
    List WaitingListEntry :=
  l.map (fun e => if e.id == wlId then { e with status := st } else e)

/-- The field updates `confirm_assignment` applies to the confirmed entry. -/
def confirmStamp (now : Int) (e : WaitingListEntry) : WaitingListEntry :=
  { e with status := WaitingListStatus.CONFIRMED, confirmedAt := some now }

/-- The enrollment-creating tail of `confirm_assignment` (the code after the
deadline check). -/
def confirmCreate (db : DB) (wl : WaitingListEntry) (now : Int) :
    Except AppErr Enrollment × DB :=
  let enrollment : Enrollment :=
    { id := db.nextId
      classSessionId := wl.classSessionId
      memberId := wl.memberId
      status := EnrollmentStatus.REGISTERED
      createdAt := now }
  let db' := { db with
    enrollments := db.enrollments ++ [enrollment]
    waitingList := db.waitingList.map (fun e =>
      if e.id == wl.id then confirmStamp now e else e)
    nextId := db.nextId + 1 }
  (.ok enrollment, db')

/-- `db_waiting_list.confirm_assignment`.  Returns the raised-or-returned
result together with the database state the method leaves behind (on the
expired path the source commits the `EXPIRED` status and promotes the next
entry before raising, so the state changes even though the call fails).
`now` stands for the `datetime.now()` reads of the method. -/
def confirm_assignment (db : DB) (waitingListId : Nat) (now : Int) :
    Except AppErr Enrollment × DB :=
  match db.waitingList.find? (fun e => e.id == waitingListId) with
  | none => (.error (.NotFoundError "Waiting list entry not found"), db)
  | some wl =>
    if wl.status != WaitingListStatus.ASSIGNED then
      (.error (.AppError "Waiting list entry is not in ASSIGNED status"), db)
    else
      match wl.approvalDeadline with
      | some deadline =>
        if now > deadline then
          let db1 := { db with
            waitingList := setStatusById db.waitingList waitingListId
              WaitingListStatus.EXPIRED }
          let db2 := (promote_from_queue db1 wl.classSessionId now 24).1
          (.error (.AppError
            "Approval deadline has passed. Spot has been given to next in queue."), db2)
        else
          confirmCreate db wl now
      | none => confirmCreate db wl now

/-- The snapshot query of `check_expired_assignments`: `ASSIGNED` entries with
`approval_deadline < now` (a NULL deadline compares as false in SQL),
optionally restricted to one session. -/
def expiredSnapshot (db : DB) (sessionScope : Option Nat) (now : Int) :
    List WaitingListEntry :=
  db.waitingList.filter (fun e =>
    e.status == WaitingListStatus.ASSIGNED &&
    (match e.approvalDeadline with
     | some d => d < now
     | none => false) &&
    (match sessionScope with
     | some sid => e.classSessionId == sid
     | none => true))

/-- One iteration of the `for entry in expired` loop of
`check_expired_assignments`: mark the entry `EXPIRED`, then promote the next
entry of its session (the nested `promote_from_queue` call uses the default
24-hour deadline). -/
def expireOne (st : DB) (e : WaitingListEntry) (now : Int) : DB :=
  let st1 := { st with
    waitingList := setStatusById st.waitingList e.id WaitingListStatus.EXPIRED }
  (promote_from_queue st1 e.classSessionId now 24).1

/-- `db_waiting_list.check_expired_assignments` (the repository method):
returns the final state and `len(expired)`. -/
def check_expired_assignments (db : DB) (sessionScope : Option Nat) (now : Int) :
    DB × Nat :=
  let expired := expiredSnapshot db sessionScope now
  (expired.foldl (fun st e => expireOne st e now) db, expired.length)

/-- Stable insertion of an entry into a position-sorted list (helper for the
`order_by(position.asc())` of `get_waiting_list`): the new entry goes after
every entry whose position is less than or equal to its own. -/
def insertByPos (e : WaitingListEntry) : List WaitingListEntry → List WaitingListEntry
  | [] => [e]
  | x :: xs => if e.position < x.position then e :: x :: xs else x :: insertByPos e xs

/-- Stable sort by ascending `position` (the `order_by(position.asc())` of
`get_waiting_list`). -/
def sortByPos (l : List WaitingListEntry) : List WaitingListEntry :=
  l.foldl (fun acc e => insertByPos e acc) []

/-- One row of the JSON list built by `get_waiting_list`.  `waitingHours` is
the float `(now - created_at).total_seconds() / 3600`, kept exact as a
rational. -/
structure WaitingListView where
  id : Nat
  memberId : Nat
  memberName : String
  position : Int
  status : WaitingListStatus
  priorityScore : Int
  createdAt : Int
  assignedAt : Option Int
  approvalDeadline : Option Int
  waitingHours : Rat
deriving DecidableEq, Repr

/-- The dictionary `get_waiting_list` builds for one joined
(WaitingList, Member) row. -/
def viewOf (now : Int) (e : WaitingListEntry) (m : Member) : WaitingListView :=
  { id := e.id
    memberId := e.memberId
    memberName := m.fullname
    position := e.position
    status := e.status
    priorityScore := e.priorityScore
    createdAt := e.createdAt
    assignedAt := e.assignedAt
    approvalDeadline := e.approvalDeadline
    waitingHours := ((now - e.createdAt : Int) : Rat) / 3600 }

/-- `db_waiting_list.get_waiting_list`: every entry of the session (any
status) inner-joined with its member, ordered by `position` ascending. -/
def get_waiting_list (db : DB) (sessionId : Nat) (now : Int) : List WaitingListView :=
  (sortByPos (db.waitingList.filter (fun e => e.classSessionId == sessionId))).filterMap
    (fun e => (db.members.find? (fun m => m.id == e.memberId)).map (viewOf now e))

/-- The method names defined on the repository class `db_waiting_list`
(`repositories/waiting_list.py`), in source order. -/
def db_waiting_list_methods : List String :=
  ["__init__", "calculate_priority_score", "add_to_waiting_list",
   "promote_from_queue", "confirm_assignment", "check_expired_assignments",
   "get_waiting_list", "detect_high_demand"]

/-- The attribute name `WaitingListService.check_expired_assignments` looks up
on its repository (`waiting_list_service.py` line 114:
`self.waiting_list_repo.expire_assignments(session_id)`). -/
def serviceSweepTargetMethod : String := "expire_assignments"

/-- Result of a Python attribute-lookup-then-call: either the call's value or
an `AttributeError` naming the missing attribute. -/
inductive PyCall (α : Type) where
  | ok (value : α)
  | attributeError (missing : String)
deriving DecidableEq, Repr

/-- `WaitingListService.check_expired_assignments`: dynamic dispatch of the
named repository attribute; when the attribute exists on `db_waiting_list` it
runs the repository sweep, otherwise the lookup raises `AttributeError`. -/
def service_check_expired_assignments (db : DB) (sessionScope : Option Nat) (now : Int) :
    PyCall (DB × Nat) :=
  if db_waiting_list_methods.contains serviceSweepTargetMethod then
    .ok (check_expired_assignments db sessionScope now)
  else
    .attributeError serviceSweepTargetMethod

/-! ## Invariants -/

/-- Database well-formedness facts supplied by the schema: `waiting_list.id`
is a primary key (hence distinct across rows) and the id generator never
returns an id already in use. -/
def wfDB (db : DB) : Prop :=
  (db.waitingList.map (fun e => e.id)).Nodup ∧
  ∀ e ∈ db.waitingList, e.id < db.nextId

instance (db : DB) : Decidable (wfDB db) := by
  unfold wfDB; infer_instance

/-- The list `[1, 2, ..., n]` of expected queue positions. -/
def posList : Nat → List Int
  | 0 => []
  | n + 1 => posList n ++ [(n : Int) + 1]

/-- The position values of the `WAITING` entries of a session. -/
def positionsOf (l : List WaitingListEntry) (sessionId : Nat) : List Int :=
  (waitingOf l sessionId).map (fun e => e.position)

/-- The dense-position invariant for one session over a list of table rows:
the `WAITING` positions are exactly `{1..N}` (no gaps, no duplicates), `N` the
number of `WAITING` entries. -/
def denseList (l : List WaitingListEntry) (sessionId : Nat) : Prop :=
  (positionsOf l sessionId).Perm (posList (waitingOf l sessionId).length)

instance (l : List WaitingListEntry) (sessionId : Nat) : Decidable (denseList l sessionId) := by
  unfold denseList; infer_instance

/-- The dense-position invariant for one session of the database. -/
def denseQueue (db : DB) (sessionId : Nat) : Prop :=
  denseList db.waitingList sessionId

instance (db : DB) (sessionId : Nat) : Decidable (denseQueue db sessionId) := by
  unfold denseQueue; infer_instance

/-! ## Basic list lemmas -/

theorem posList_succ_append (n : Nat) :
    posList (n + 1) = posList n ++ [(n : Int) + 1] := rfl

theorem posList_succ_cons (n : Nat) :
    posList (n + 1) = 1 :: (posList n).map (fun p => p + 1) := by
  induction n with
  | zero => rfl
  | succ m ih =>
    have hcast : ((m + 1 : Nat) : Int) + 1 = ((m : Int) + 1) + 1 := by push_cast; ring
    conv_lhs => rw [posList_succ_append (m + 1), ih]
    conv_rhs => rw [posList_succ_append m]
    rw [List.map_append, List.cons_append]
    simp only [List.map_cons, List.map_nil]
    rw [hcast]

theorem mem_posList {p : Int} {n : Nat} : p ∈ posList n ↔ 1 ≤ p ∧ p ≤ (n : Int) := by
  induction n with
  | zero =>
    simp only [posList, List.not_mem_nil, false_iff, not_and, Nat.cast_zero]
    omega
  | succ m ih =>
    rw [posList_succ_append, List.mem_append]
    simp only [List.mem_singleton, ih]
    push_cast
    omega

theorem filter_map_of_preserve {l : List WaitingListEntry}
    {p : WaitingListEntry → Bool} {f : WaitingListEntry → WaitingListEntry}
    (hf : ∀ e ∈ l, p (f e) = p e) :
    (l.map f).filter p = (l.filter p).map f := by
  induction l with
  | nil => rfl
  | cons x xs ih =>
    have hx := hf x (List.mem_cons_self x xs)
    have ih' := ih (fun e he => hf e (List.mem_cons_of_mem x he))
    by_cases h : p x = true
    · simp [List.filter_cons, hx, h, ih']
    · simp only [Bool.not_eq_true] at h
      simp [List.filter_cons, hx, h, ih']

theorem eq_of_id_nodup {l : List WaitingListEntry}
    (hnd : (l.map (fun e => e.id)).Nodup) {x f : WaitingListEntry}
    (hx : x ∈ l) (hf : f ∈ l) (h : x.id = f.id) : x = f := by
  induction l with
  | nil => cases hx
  | cons a as ih =>
    simp only [List.map_cons, List.nodup_cons, List.mem_map] at hnd
    rcases List.mem_cons.mp hx with rfl | hx' <;>
      rcases List.mem_cons.mp hf with rfl | hf'
    · rfl
    · exact absurd ⟨f, hf', h.symm⟩ hnd.1
    · exact absurd ⟨x, hx', h⟩ hnd.1
    · exact ih hnd.2 hx' hf'

theorem filter_ne_id_perm {l : List WaitingListEntry}
    (hnd : (l.map (fun e => e.id)).Nodup) {f : WaitingListEntry} (hf : f ∈ l) :
    l.Perm (f :: l.filter (fun e => !(e.id == f.id))) := by
  induction l with
  | nil => cases hf
  | cons a as ih =>
    simp only [List.map_cons, List.nodup_cons, List.mem_map] at hnd
    rcases List.mem_cons.mp hf with rfl | hf'
    · have htail : as.filter (fun e => !(e.id == f.id)) = as := by
        apply List.filter_eq_self.mpr
        intro e he
        simp only [Bool.not_eq_eq_eq_not, Bool.not_true, beq_eq_false_iff_ne, ne_eq]
        intro hid
        exact hnd.1 ⟨e, he, hid⟩
      have hhead : (f.id == f.id) = true := beq_self_eq_true f.id
      simp [List.filter_cons, hhead, htail]
    · have hne : a.id ≠ f.id := fun hid => hnd.1 ⟨f, hf', hid.symm⟩
      have step := ih hnd.2 hf'
      have h1 : (a :: as).Perm (a :: f :: as.filter (fun e => !(e.id == f.id))) :=
        step.cons a
      have h2 : (a :: f :: as.filter (fun e => !(e.id == f.id))).Perm
          (f :: a :: as.filter (fun e => !(e.id == f.id))) :=
        List.Perm.swap f a _
      have h3 : f :: a :: as.filter (fun e => !(e.id == f.id))
          = f :: (a :: as).filter (fun e => !(e.id == f.id)) := by
        have hb : (a.id == f.id) = false := beq_eq_false_iff_ne.mpr hne
        simp [List.filter_cons, hb]
      exact h3 ▸ h1.trans h2

theorem map_shift_eq_self {l : List Int} {fp : Int} (h : ∀ p ∈ l, p < fp) :
    l.map (fun p => if fp ≤ p then p + 1 else p) = l := by
  have hid : ∀ p ∈ l, (if fp ≤ p then p + 1 else p) = id p := by
    intro p hp
    simp [not_le.mpr (h p hp)]
  rw [List.map_congr_left hid, List.map_id]

theorem shift_insert_perm (n : Nat) (fp : Int) (h1 : 1 ≤ fp) (h2 : fp ≤ (n : Int) + 1) :
    ((posList n).map (fun p => if fp ≤ p then p + 1 else p) ++ [fp]).Perm
      (posList (n + 1)) := by
  induction n with
  | zero =>
    have : fp = 1 := by
      simp only [Nat.cast_zero, zero_add] at h2
      omega
    subst this
    decide
  | succ m ih =>
    have hcast : ((m + 1 : Nat) : Int) = (m : Int) + 1 := by push_cast; ring
    by_cases hle : fp ≤ (m : Int) + 1
    · have hsh : (if fp ≤ (m : Int) + 1 then (m : Int) + 1 + 1 else (m : Int) + 1)
          = (m : Int) + 1 + 1 := if_pos hle
      rw [posList_succ_append m, List.map_append, List.map_cons, List.map_nil, hsh]
      have step1 :
          (((posList m).map (fun p => if fp ≤ p then p + 1 else p) ++ [(m : Int) + 1 + 1])
              ++ [fp]).Perm
            (((posList m).map (fun p => if fp ≤ p then p + 1 else p) ++ [fp])
              ++ [(m : Int) + 1 + 1]) := by
        rw [List.append_assoc, List.append_assoc]
        exact List.Perm.append_left _ List.perm_append_comm
      have step2 :
          (((posList m).map (fun p => if fp ≤ p then p + 1 else p) ++ [fp])
              ++ [(m : Int) + 1 + 1]).Perm
            (posList (m + 1) ++ [(m : Int) + 1 + 1]) :=
        List.Perm.append_right _ (ih hle)
      have step3 : posList (m + 1) ++ [(m : Int) + 1 + 1] = posList (m + 1 + 1) := by
        rw [posList_succ_append (m + 1), hcast]
      exact (step1.trans step2).trans (step3 ▸ List.Perm.refl _)
    · have hfp : fp = (m : Int) + 1 + 1 := by
        rw [hcast] at h2
        omega
      have hall : ∀ p ∈ posList (m + 1), p < fp := by
        intro p hp
        have := mem_posList.mp hp
        rw [hcast] at this
        omega
      rw [map_shift_eq_self hall]
      have heq : posList (m + 1) ++ [fp] = posList (m + 1 + 1) := by
        rw [posList_succ_append (m + 1), hcast, hfp]
      rw [heq]

theorem foldl_min_le_init (l : List Int) (start : Int) : l.foldl min start ≤ start := by
  induction l generalizing start with
  | nil => exact le_refl start
  | cons x xs ih =>
    exact le_trans (ih (min start x)) (min_le_left start x)

theorem le_foldl_min {l : List Int} {start c : Int} (hc : c ≤ start)
    (h : ∀ x ∈ l, c ≤ x) : c ≤ l.foldl min start := by
  induction l generalizing start with
  | nil => exact hc
  | cons x xs ih =>
    exact ih (le_min hc (h x (List.mem_cons_self x xs)))
      (fun y hy => h y (List.mem_cons_of_mem x hy))

theorem foldl_min_eq_of_mem {l : List Int} {start b : Int} (hb : b ∈ l)
    (hle : ∀ x ∈ l, b ≤ x) (hs : b ≤ start) : l.foldl min start = b := by
  induction l generalizing start with
  | nil => cases hb
  | cons x xs ih =>
    rcases List.mem_cons.mp hb with rfl | hb'
    · by_cases hx : b ∈ xs
      · exact ih hx (fun y hy => hle y (List.mem_cons_of_mem b hy)) (le_min hs (le_refl b))
      · have hmin : min start b = b := min_eq_right hs
        rw [List.foldl_cons, hmin]
        have hstep : ∀ y ∈ xs, b ≤ y := fun y hy => hle y (List.mem_cons_of_mem b hy)
        exact le_antisymm (foldl_min_le_init xs b) (le_foldl_min (le_refl b) hstep)
    · exact ih hb' (fun y hy => hle y (List.mem_cons_of_mem x hy))
        (le_min hs (hle x (List.mem_cons_self x xs)))

/-- The condition under which `add_to_waiting_list` takes the `min` branch for
an existing entry: the new entry should come before it. -/
def matchCond (score now : Int) (e : WaitingListEntry) : Bool :=
  decide (score > e.priorityScore) ||
    (score == e.priorityScore && decide (now < e.createdAt))

theorem finalPositionFold_eq_foldl_min (entries : List WaitingListEntry)
    (score now start : Int) :
    finalPositionFold entries score now start
      = ((entries.filter (matchCond score now)).map (fun e => e.position)).foldl
          min start := by
  induction entries generalizing start with
  | nil => rfl
  | cons e es ih =>
    by_cases h1 : score > e.priorityScore
    · have hm : matchCond score now e = true := by
        simp [matchCond, h1]
      simp only [finalPositionFold, List.foldl_cons, if_pos h1] at *
      rw [List.filter_cons_of_pos hm, List.map_cons, List.foldl_cons]
      exact ih (min start e.position)
    · by_cases h2 : (score == e.priorityScore && decide (now < e.createdAt)) = true
      · have hm : matchCond score now e = true := by
          simp [matchCond, h2]
        simp only [finalPositionFold, List.foldl_cons, if_neg h1, if_pos h2] at *
        rw [List.filter_cons_of_pos hm, List.map_cons, List.foldl_cons]
        exact ih (min start e.position)
      · have hm : matchCond score now e = false := by
          simp only [matchCond, Bool.or_eq_false_iff]
          exact ⟨by simpa using h1, by simpa using h2⟩
        simp only [finalPositionFold, List.foldl_cons, if_neg h1, if_neg h2] at *
        rw [List.filter_cons_of_neg (by simp [hm]), ]
        exact ih start

theorem finalPositionFold_bounds (entries : List WaitingListEntry)
    (score now start : Int) (hpos : ∀ e ∈ entries, 1 ≤ e.position) (hstart : 1 ≤ start) :
    1 ≤ finalPositionFold entries score now start ∧
      finalPositionFold entries score now start ≤ start := by
  rw [finalPositionFold_eq_foldl_min]
  constructor
  · apply le_foldl_min hstart
    intro x hx
    rcases List.mem_map.mp hx with ⟨e, he, rfl⟩
    exact hpos e (List.mem_filter.mp he).1
  · exact foldl_min_le_init _ _

theorem minByPos_go {l : List WaitingListEntry} (b : WaitingListEntry) :
    ∃ c, l.foldl
        (fun acc e =>
          match acc with
          | none => some e
          | some b => if e.position < b.position then some e else acc)
        (some b) = some c ∧
      (c = b ∨ c ∈ l) ∧ c.position ≤ b.position ∧ ∀ e ∈ l, c.position ≤ e.position := by
  induction l generalizing b with
  | nil => exact ⟨b, rfl, Or.inl rfl, le_refl _, by simp⟩
  | cons x xs ih =>
    by_cases hx : x.position < b.position
    · rcases @ih x with ⟨c, hc, hmem, hcb, hall⟩
      refine ⟨c, ?_, ?_, ?_, ?_⟩
      · simpa [hx] using hc
      · rcases hmem with rfl | h
        · exact Or.inr (List.mem_cons_self _ _)
        · exact Or.inr (List.mem_cons_of_mem x h)
      · exact le_trans hcb (le_of_lt hx)
      · intro e he
        rcases List.mem_cons.mp he with rfl | h
        · exact hcb
        · exact hall e h
    · rcases @ih b with ⟨c, hc, hmem, hcb, hall⟩
      refine ⟨c, ?_, ?_, hcb, ?_⟩
      · simpa [hx] using hc
      · rcases hmem with rfl | h
        · exact Or.inl rfl
        · exact Or.inr (List.mem_cons_of_mem x h)
      · intro e he
        rcases List.mem_cons.mp he with rfl | h
        · exact le_trans hcb (not_lt.mp hx)
        · exact hall e h

theorem minByPos_none_iff {l : List WaitingListEntry} : minByPos l = none ↔ l = [] := by
  cases l with
  | nil => simp [minByPos]
  | cons x xs =>
    simp only [minByPos, List.foldl_cons]
    rcases @minByPos_go xs x with ⟨c, hc, _, _, _⟩
    constructor
    · intro h
      rw [hc] at h
      cases h
    · intro h
      cases h

theorem minByPos_spec {l : List WaitingListEntry} {f : WaitingListEntry}
    (h : minByPos l = some f) : f ∈ l ∧ ∀ e ∈ l, f.position ≤ e.position := by
  cases l with
  | nil => cases h
  | cons x xs =>
    rcases @minByPos_go xs x with ⟨c, hc, hmem, hcb, hall⟩
    have hfc : f = c := by
      have : minByPos (x :: xs) = some c := by
        simp only [minByPos, List.foldl_cons]
        exact hc
      rw [this] at h
      exact (Option.some_inj.mp h).symm
    subst hfc
    constructor
    · rcases hmem with rfl | hm
      · exact List.mem_cons_self _ _
      · exact List.mem_cons_of_mem x hm
    · intro e he
      rcases List.mem_cons.mp he with rfl | hm
      · exact hcb
      · exact hall e hm

/-! ## Characterization of the operations on per-session WAITING lists -/

theorem waitingPred_iff {sid : Nat} {e : WaitingListEntry} :
    waitingPred sid e = true ↔
      e.classSessionId = sid ∧ e.status = WaitingListStatus.WAITING := by
  simp [waitingPred, Bool.and_eq_true, beq_iff_eq]

theorem waitingPred_shiftEntry (sid sid' : Nat) (fp : Int) (e : WaitingListEntry) :
    waitingPred sid' (shiftEntry sid fp e) = waitingPred sid' e := by
  unfold shiftEntry
  split
  · rfl
  · rfl

theorem shiftEntry_position_of_pred {sid : Nat} {fp : Int} {e : WaitingListEntry}
    (h : waitingPred sid e = true) :
    (shiftEntry sid fp e).position =
      if fp ≤ e.position then e.position + 1 else e.position := by
  rcases waitingPred_iff.mp h with ⟨h1, h2⟩
  unfold shiftEntry
  by_cases hfp : fp ≤ e.position
  · rw [if_pos (by simp [h1, h2, ge_iff_le, hfp]), if_pos hfp]
  · rw [if_neg (by simp [ge_iff_le, hfp]), if_neg hfp]

theorem waitingOf_addInsert_self (db : DB) (sid mid : Nat) (now nowCalc : Int) :
    waitingOf (addInsert db sid mid now nowCalc).1.waitingList sid
      = (waitingOf db.waitingList sid).map
          (shiftEntry sid (addFinalPosition db sid mid now nowCalc))
        ++ [addNewEntry db sid mid now nowCalc] := by
  unfold addInsert waitingOf
  rw [List.filter_append]
  have h1 : (db.waitingList.map
      (shiftEntry sid (addFinalPosition db sid mid now nowCalc))).filter (waitingPred sid)
      = (db.waitingList.filter (waitingPred sid)).map
          (shiftEntry sid (addFinalPosition db sid mid now nowCalc)) :=
    filter_map_of_preserve (fun e _ => waitingPred_shiftEntry sid sid _ e)
  have h2 : [addNewEntry db sid mid now nowCalc].filter (waitingPred sid)
      = [addNewEntry db sid mid now nowCalc] := by
    simp [List.filter_cons, waitingPred, addNewEntry]
  rw [h1, h2]

theorem waitingOf_addInsert_other (db : DB) (sid mid : Nat) (now nowCalc : Int)
    (s : Nat) (hs : s ≠ sid) :
    waitingOf (addInsert db sid mid now nowCalc).1.waitingList s
      = waitingOf db.waitingList s := by
  unfold addInsert waitingOf
  rw [List.filter_append]
  have h1 : (db.waitingList.map
      (shiftEntry sid (addFinalPosition db sid mid now nowCalc))).filter (waitingPred s)
      = (db.waitingList.filter (waitingPred s)).map
          (shiftEntry sid (addFinalPosition db sid mid now nowCalc)) :=
    filter_map_of_preserve (fun e _ => waitingPred_shiftEntry sid s _ e)
  have h2 : [addNewEntry db sid mid now nowCalc].filter (waitingPred s) = [] := by
    have : waitingPred s (addNewEntry db sid mid now nowCalc) = false := by
      simp only [waitingPred, addNewEntry, Bool.and_eq_false_iff]
      exact Or.inl (beq_eq_false_iff_ne.mpr (fun h => hs h.symm))
    simp [List.filter_cons, this]
  rw [h1, h2, List.append_nil]
  have h3 : ∀ e ∈ db.waitingList.filter (waitingPred s),
      shiftEntry sid (addFinalPosition db sid mid now nowCalc) e = e := by
    intro e he
    have hpred := (List.mem_filter.mp he).2
    have hsess : e.classSessionId = s := (waitingPred_iff.mp hpred).1
    have hA : (e.classSessionId == sid) = false :=
      beq_eq_false_iff_ne.mpr (by rw [hsess]; exact hs)
    unfold shiftEntry
    rw [if_neg (by simp [hA])]
  rw [List.map_congr_left h3, List.map_id']

theorem waitingOf_promoteShift_self (l : List WaitingListEntry) (sid : Nat)
    (first promoted : WaitingListEntry)
    (hpr : promoted.status ≠ WaitingListStatus.WAITING) :
    waitingOf (l.map (promoteShift sid first promoted)) sid
      = ((waitingOf l sid).filter (fun e => !(e.id == first.id))).map
          (fun e => { e with position := max 1 (e.position - 1) }) := by
  induction l with
  | nil => rfl
  | cons x xs ih =>
    unfold waitingOf at *
    rw [List.map_cons]
    by_cases hid : (x.id == first.id) = true
    · have hx : promoteShift sid first promoted x = promoted := by
        unfold promoteShift
        rw [if_pos hid]
      have hpp : waitingPred sid promoted = false := by
        simp only [waitingPred, Bool.and_eq_false_iff]
        exact Or.inr (beq_eq_false_iff_ne.mpr hpr)
      rw [hx, List.filter_cons_of_neg (by simp [hpp]), ih]
      by_cases hpx : waitingPred sid x = true
      · rw [List.filter_cons_of_pos hpx, List.filter_cons_of_neg (by simp [hid])]
      · rw [List.filter_cons_of_neg (by simp at hpx ⊢; exact hpx)]
    · have hid' : (x.id == first.id) = false := by
        cases h : (x.id == first.id) with
        | true => exact absurd h hid
        | false => rfl
      by_cases hpx : waitingPred sid x = true
      · have hx : promoteShift sid first promoted x
            = { x with position := max 1 (x.position - 1) } := by
          unfold promoteShift
          rw [if_neg (by simp [hid']), if_pos (by exact hpx)]
        have hpdec : waitingPred sid { x with position := max 1 (x.position - 1) } = true :=
          hpx
        rw [hx, List.filter_cons_of_pos hpdec, List.filter_cons_of_pos hpx,
          List.filter_cons_of_pos (by simp [hid']), List.map_cons, ih]
      · have hpx' : waitingPred sid x = false := by
          cases h : waitingPred sid x with
          | true => exact absurd h hpx
          | false => rfl
        have hpx'' : (x.classSessionId == sid &&
            x.status == WaitingListStatus.WAITING) = false := hpx'
        have hx : promoteShift sid first promoted x = x := by
          unfold promoteShift
          rw [if_neg (by simp [hid']), if_neg (by simp [hpx''])]
        rw [hx, List.filter_cons_of_neg (by simp [hpx']),
          List.filter_cons_of_neg (by simp [hpx']), ih]

theorem waitingOf_promoteShift_other (l : List WaitingListEntry) (s sid : Nat)
    (hs : s ≠ sid) (hnd : (l.map (fun e => e.id)).Nodup)
    (first promoted : WaitingListEntry) (hf : first ∈ l)
    (hfs : first.classSessionId = sid) (hps : promoted.classSessionId = sid) :
    waitingOf (l.map (promoteShift sid first promoted)) s = waitingOf l s := by
  unfold waitingOf
  have hpres : ∀ e ∈ l,
      waitingPred s (promoteShift sid first promoted e) = waitingPred s e := by
    intro e he
    unfold promoteShift
    by_cases hid : (e.id == first.id) = true
    · rw [if_pos hid]
      have hef : e = first := eq_of_id_nodup hnd he hf (beq_iff_eq.mp hid)
      have h1 : waitingPred s promoted = false := by
        simp only [waitingPred, Bool.and_eq_false_iff]
        exact Or.inl (beq_eq_false_iff_ne.mpr (by rw [hps]; exact fun hh => hs hh.symm))
      have h2 : waitingPred s e = false := by
        simp only [waitingPred, Bool.and_eq_false_iff]
        refine Or.inl (beq_eq_false_iff_ne.mpr ?_)
        rw [hef, hfs]
        exact fun hh => hs hh.symm
      rw [h1, h2]
    · rw [if_neg hid]
      split
      · rfl
      · rfl
  rw [filter_map_of_preserve hpres]
  have h3 : ∀ e ∈ l.filter (waitingPred s), promoteShift sid first promoted e = e := by
    intro e he
    have hmem := (List.mem_filter.mp he).1
    have hpred := (List.mem_filter.mp he).2
    have hsess : e.classSessionId = s := (waitingPred_iff.mp hpred).1
    have hidne : (e.id == first.id) = false := by
      apply beq_eq_false_iff_ne.mpr
      intro hid
      have hef : e = first := eq_of_id_nodup hnd hmem hf hid
      rw [hef, hfs] at hsess
      exact hs hsess.symm
    have hA : (e.classSessionId == sid) = false :=
      beq_eq_false_iff_ne.mpr (by rw [hsess]; exact hs)
    unfold promoteShift
    rw [if_neg (by simp [hidne]), if_neg (by simp [hA])]
  rw [List.map_congr_left h3, List.map_id']

theorem waitingOf_mapById_of_nonwaiting (l : List WaitingListEntry) (wlId : Nat)
    (f : WaitingListEntry → WaitingListEntry)
    (hfs : ∀ e, (f e).status ≠ WaitingListStatus.WAITING)
    (h : ∀ x ∈ l, x.id = wlId → x.status ≠ WaitingListStatus.WAITING) (s : Nat) :
    waitingOf (l.map (fun e => if e.id == wlId then f e else e)) s = waitingOf l s := by
  unfold waitingOf
  have hpres : ∀ e ∈ l,
      waitingPred s (if e.id == wlId then f e else e) = waitingPred s e := by
    intro e he
    by_cases hid : (e.id == wlId) = true
    · rw [if_pos hid]
      have h1 : waitingPred s (f e) = false := by
        simp only [waitingPred, Bool.and_eq_false_iff]
        exact Or.inr (beq_eq_false_iff_ne.mpr (hfs e))
      have h2 : waitingPred s e = false := by
        simp only [waitingPred, Bool.and_eq_false_iff]
        exact Or.inr (beq_eq_false_iff_ne.mpr (h e he (beq_iff_eq.mp hid)))
      rw [h1, h2]
    · rw [if_neg hid]
  rw [filter_map_of_preserve hpres]
  have h3 : ∀ e ∈ l.filter (waitingPred s), (if e.id == wlId then f e else e) = e := by
    intro e he
    have hmem := (List.mem_filter.mp he).1
    have hpred := (List.mem_filter.mp he).2
    have hstat : e.status = WaitingListStatus.WAITING := (waitingPred_iff.mp hpred).2
    have hidne : (e.id == wlId) = false := by
      apply beq_eq_false_iff_ne.mpr
      intro hid
      exact h e hmem hid hstat
    rw [if_neg (by simp [hidne])]
  rw [List.map_congr_left h3, List.map_id']

theorem map_preserves_ids {l : List WaitingListEntry}
    {g : WaitingListEntry → WaitingListEntry}
    (hg : ∀ e ∈ l, (g e).id = e.id) :
    (l.map g).map (fun e => e.id) = l.map (fun e => e.id) := by
  rw [List.map_map]
  exact List.map_congr_left hg

theorem wf_map {db : DB} {g : WaitingListEntry → WaitingListEntry}
    (hg : ∀ e ∈ db.waitingList, (g e).id = e.id) (hwf : wfDB db) :
    wfDB { db with waitingList := db.waitingList.map g } := by
  constructor
  · show ((db.waitingList.map g).map (fun e => e.id)).Nodup
    rw [map_preserves_ids hg]
    exact hwf.1
  · intro e he
    rcases List.mem_map.mp he with ⟨x, hx, rfl⟩
    show (g x).id < db.nextId
    rw [hg x hx]
    exact hwf.2 x hx

theorem dense_pos_mem {l : List WaitingListEntry} {sid : Nat}
    (hd : denseList l sid) {e : WaitingListEntry} (he : e ∈ waitingOf l sid) :
    1 ≤ e.position ∧ e.position ≤ ((waitingOf l sid).length : Int) := by
  have h1 : e.position ∈ positionsOf l sid := List.mem_map_of_mem _ he
  have h2 : e.position ∈ posList (waitingOf l sid).length := hd.mem_iff.mp h1
  exact mem_posList.mp h2

/-! ## Dense-position preservation -/

theorem addFinalPosition_bounds (db : DB) (sid mid : Nat) (now nowCalc : Int)
    (hd : denseList db.waitingList sid) :
    1 ≤ addFinalPosition db sid mid now nowCalc ∧
      addFinalPosition db sid mid now nowCalc
        ≤ ((waitingOf db.waitingList sid).length : Int) + 1 := by
  unfold addFinalPosition
  apply finalPositionFold_bounds
  · intro e he
    exact (dense_pos_mem hd he).1
  · have : (0 : Int) ≤ ((waitingOf db.waitingList sid).length : Int) :=
      Int.ofNat_nonneg _
    omega

theorem addInsert_dense (db : DB) (sid mid : Nat) (now nowCalc : Int)
    (hd : ∀ s, denseList db.waitingList s) (s : Nat) :
    denseList (addInsert db sid mid now nowCalc).1.waitingList s := by
  by_cases hs : s = sid
  · subst hs
    have hw := waitingOf_addInsert_self db s mid now nowCalc
    unfold denseList positionsOf
    rw [hw]
    have hlen : ((waitingOf db.waitingList s).map
          (shiftEntry s (addFinalPosition db s mid now nowCalc))
        ++ [addNewEntry db s mid now nowCalc]).length
        = (waitingOf db.waitingList s).length + 1 := by
      simp
    rw [hlen, List.map_append, List.map_map]
    have hcomp : ∀ e ∈ waitingOf db.waitingList s,
        ((fun e => e.position) ∘ shiftEntry s (addFinalPosition db s mid now nowCalc)) e
          = ((fun p => if addFinalPosition db s mid now nowCalc ≤ p then p + 1 else p) ∘
              (fun e => e.position)) e := by
      intro e he
      have := @shiftEntry_position_of_pred s (addFinalPosition db s mid now nowCalc)
        e (List.mem_filter.mp he).2
      simpa using this
    rw [List.map_congr_left hcomp, ← List.map_map]
    have hnew : [addNewEntry db s mid now nowCalc].map (fun e => e.position)
        = [addFinalPosition db s mid now nowCalc] := rfl
    rw [hnew]
    have hb := addFinalPosition_bounds db s mid now nowCalc (hd s)
    have hperm1 :
        ((positionsOf db.waitingList s).map
            (fun p => if addFinalPosition db s mid now nowCalc ≤ p then p + 1 else p)
          ++ [addFinalPosition db s mid now nowCalc]).Perm
          ((posList (waitingOf db.waitingList s).length).map
              (fun p => if addFinalPosition db s mid now nowCalc ≤ p then p + 1 else p)
            ++ [addFinalPosition db s mid now nowCalc]) :=
      List.Perm.append_right _ ((hd s).map _)
    exact hperm1.trans
      (shift_insert_perm (waitingOf db.waitingList s).length _ hb.1 hb.2)
  · have hw := waitingOf_addInsert_other db sid mid now nowCalc s (by exact hs)
    unfold denseList positionsOf
    rw [hw]
    exact hd s

theorem promote_eq_none {db : DB} {sid : Nat} (now hrs : Int)
    (h : headWaiting db sid = none) :
    promote_from_queue db sid now hrs = (db, none) := by
  unfold promote_from_queue
  rw [h]

theorem promote_eq_some {db : DB} {sid : Nat} (now hrs : Int)
    {first : WaitingListEntry} (h : headWaiting db sid = some first) :
    promote_from_queue db sid now hrs =
      ({ db with
          waitingList := db.waitingList.map
            (promoteShift sid first (assignStamp first now (now + hrs * 3600))) },
       some (assignStamp first now (now + hrs * 3600))) := by
  unfold promote_from_queue
  rw [h]

theorem headWaiting_none_iff {db : DB} {sid : Nat} :
    headWaiting db sid = none ↔ waitingOf db.waitingList sid = [] :=
  minByPos_none_iff

theorem headWaiting_spec {db : DB} {sid : Nat} {first : WaitingListEntry}
    (h : headWaiting db sid = some first) :
    first ∈ waitingOf db.waitingList sid ∧
      ∀ e ∈ waitingOf db.waitingList sid, first.position ≤ e.position :=
  minByPos_spec h

theorem headWaiting_pos_one {db : DB} {sid : Nat} {first : WaitingListEntry}
    (hd : denseList db.waitingList sid) (h : headWaiting db sid = some first) :
    first.position = 1 := by
  rcases headWaiting_spec h with ⟨hmem, hmin⟩
  have hlen : 1 ≤ (waitingOf db.waitingList sid).length :=
    List.length_pos.mpr (List.ne_nil_of_mem hmem)
  have h1mem : (1 : Int) ∈ posList (waitingOf db.waitingList sid).length := by
    rw [mem_posList]
    exact ⟨le_refl 1, by exact_mod_cast hlen⟩
  have h1pos : (1 : Int) ∈ positionsOf db.waitingList sid := hd.mem_iff.mpr h1mem
  rcases List.mem_map.mp h1pos with ⟨e, he, hpe⟩
  have hle : first.position ≤ 1 := hpe ▸ hmin e he
  have hge : 1 ≤ first.position := (dense_pos_mem hd hmem).1
  omega

theorem promoteShift_id_preserve (sid : Nat) (first : WaitingListEntry)
    (now deadline : Int) (e : WaitingListEntry) :
    (promoteShift sid first (assignStamp first now deadline) e).id = e.id := by
  unfold promoteShift
  by_cases hid : (e.id == first.id) = true
  · rw [if_pos hid]
    show first.id = e.id
    exact (beq_iff_eq.mp hid).symm
  · rw [if_neg hid]
    split
    · rfl
    · rfl

theorem promote_preserves (db : DB) (sid : Nat) (now hrs : Int)
    (hwf : wfDB db) (hd : ∀ s, denseList db.waitingList s) :
    wfDB (promote_from_queue db sid now hrs).1 ∧
      ∀ s, denseList (promote_from_queue db sid now hrs).1.waitingList s := by
  cases hhead : headWaiting db sid with
  | none =>
    rw [promote_eq_none now hrs hhead]
    exact ⟨hwf, hd⟩
  | some first =>
    rw [promote_eq_some now hrs hhead]
    rcases headWaiting_spec hhead with ⟨hmemW, _⟩
    have hmemL : first ∈ db.waitingList := (List.mem_filter.mp hmemW).1
    have hpredW : waitingPred sid first = true := (List.mem_filter.mp hmemW).2
    have hfs : first.classSessionId = sid := (waitingPred_iff.mp hpredW).1
    have hpos1 : first.position = 1 := headWaiting_pos_one (hd sid) hhead
    have hg : ∀ e ∈ db.waitingList,
        (promoteShift sid first (assignStamp first now (now + hrs * 3600)) e).id = e.id :=
      fun e _ => promoteShift_id_preserve sid first now (now + hrs * 3600) e
    refine ⟨wf_map hg hwf, ?_⟩
    intro s
    by_cases hs : s = sid
    · subst hs
      have hpr : (assignStamp first now (now + hrs * 3600)).status ≠
          WaitingListStatus.WAITING := by
        simp [assignStamp]
      have hself := waitingOf_promoteShift_self db.waitingList s first
        (assignStamp first now (now + hrs * 3600)) hpr
      unfold denseList positionsOf
      show ((waitingOf (db.waitingList.map _) s).map _).Perm _
      rw [hself]
      have hndW : ((waitingOf db.waitingList s).map (fun e => e.id)).Nodup := by
        apply List.Nodup.sublist _ hwf.1
        exact List.Sublist.map _ (List.filter_sublist _)
      have hpermW : (waitingOf db.waitingList s).Perm
          (first :: (waitingOf db.waitingList s).filter (fun e => !(e.id == first.id))) :=
        filter_ne_id_perm hndW hmemW
      set R := (waitingOf db.waitingList s).filter (fun e => !(e.id == first.id)) with hR
      have hlenW : (waitingOf db.waitingList s).length = R.length + 1 := by
        have := hpermW.length_eq
        simpa using this
      have hposW : (positionsOf db.waitingList s).Perm (1 :: R.map (fun e => e.position)) := by
        have := hpermW.map (fun e => e.position)
        rw [List.map_cons, hpos1] at this
        exact this
      have hdense := hd s
      unfold denseList at hdense
      have hchain : (1 :: R.map (fun e => e.position)).Perm
          (1 :: (posList R.length).map (fun p => p + 1)) := by
        have h1 : (1 :: R.map (fun e => e.position)).Perm
            (posList (waitingOf db.waitingList s).length) :=
          hposW.symm.trans hdense
        rw [hlenW, posList_succ_cons] at h1
        exact h1
      have hRpos : (R.map (fun e => e.position)).Perm
          ((posList R.length).map (fun p => p + 1)) :=
        hchain.cons_inv
      have hmapmap : (R.map (fun e =>
            { e with position := max 1 (e.position - 1) })).map (fun e => e.position)
          = (R.map (fun e => e.position)).map (fun p => max 1 (p - 1)) := by
        rw [List.map_map, List.map_map]
        rfl
      rw [hmapmap]
      have hlen2 : (R.map (fun e =>
          { e with position := max 1 (e.position - 1) })).length = R.length := by
        simp
      rw [hlen2]
      have hstep : ((R.map (fun e => e.position)).map (fun p => max 1 (p - 1))).Perm
          (((posList R.length).map (fun p => p + 1)).map (fun p => max 1 (p - 1))) :=
        hRpos.map _
      have hfinal : ((posList R.length).map (fun p => p + 1)).map (fun p => max 1 (p - 1))
          = posList R.length := by
        rw [List.map_map]
        have : ∀ p ∈ posList R.length,
            ((fun p => max 1 (p - 1)) ∘ (fun p => p + 1)) p = id p := by
          intro p hp
          have h1p := (mem_posList.mp hp).1
          simp only [Function.comp_apply, id]
          omega
        rw [List.map_congr_left this, List.map_id]
      refine hstep.trans ?_
      rw [hfinal]
    · have hother := waitingOf_promoteShift_other db.waitingList s sid hs hwf.1
        first (assignStamp first now (now + hrs * 3600)) hmemL hfs hfs
      unfold denseList positionsOf
      show ((waitingOf (db.waitingList.map _) s).map _).Perm _
      rw [hother]
      exact hd s

theorem shiftEntry_id_preserve (sid : Nat) (fp : Int) (e : WaitingListEntry) :
    (shiftEntry sid fp e).id = e.id := by
  unfold shiftEntry
  split
  · rfl
  · rfl

theorem addInsert_wf (db : DB) (sid mid : Nat) (now nowCalc : Int)
    (hwf : wfDB db) : wfDB (addInsert db sid mid now nowCalc).1 := by
  constructor
  · show (((db.waitingList.map
        (shiftEntry sid (addFinalPosition db sid mid now nowCalc)))
        ++ [addNewEntry db sid mid now nowCalc]).map (fun e => e.id)).Nodup
    rw [List.map_append,
      map_preserves_ids (fun e _ => shiftEntry_id_preserve sid _ e)]
    rw [List.nodup_append]
    refine ⟨hwf.1, List.nodup_singleton _, ?_⟩
    intro a ha
    rcases List.mem_map.mp ha with ⟨x, hx, rfl⟩
    intro hmem
    rcases List.mem_map.mp hmem with ⟨y, hy, hid⟩
    rcases List.mem_singleton.mp hy with rfl
    have hlt := hwf.2 x hx
    have hnew : (addNewEntry db sid mid now nowCalc).id = db.nextId := rfl
    omega
  · intro e he
    rcases List.mem_append.mp he with h1 | h2
    · rcases List.mem_map.mp h1 with ⟨x, hx, rfl⟩
      show (shiftEntry sid _ x).id < db.nextId + 1
      rw [shiftEntry_id_preserve]
      have := hwf.2 x hx
      omega
    · rcases List.mem_singleton.mp h2 with rfl
      show db.nextId < db.nextId + 1
      omega

theorem add_ok_inv {db : DB} {sid mid : Nat} {now nowCalc : Int} {db' : DB}
    {w : WaitingListEntry}
    (h : add_to_waiting_list db sid mid now nowCalc = .ok (db', w)) :
    db' = (addInsert db sid mid now nowCalc).1 ∧
      w = (addInsert db sid mid now nowCalc).2 := by
  unfold add_to_waiting_list at h
  split at h
  · exact Except.noConfusion h
  · split at h
    · exact Except.noConfusion h
    · split at h
      · exact Except.noConfusion h
      · split at h
        · exact Except.noConfusion h
        · split at h
          · exact Except.noConfusion h
          · injection h with h'
            exact ⟨(congrArg Prod.fst h').symm, (congrArg Prod.snd h').symm⟩

theorem waitingOf_setStatusById (l : List WaitingListEntry) (wlId : Nat)
    (st : WaitingListStatus) (hst : st ≠ WaitingListStatus.WAITING)
    (h : ∀ x ∈ l, x.id = wlId → x.status ≠ WaitingListStatus.WAITING) (s : Nat) :
    waitingOf (setStatusById l wlId st) s = waitingOf l s :=
  waitingOf_mapById_of_nonwaiting l wlId (fun e => { e with status := st })
    (fun _ => hst) h s

theorem setStatusById_ids (l : List WaitingListEntry) (wlId : Nat)
    (st : WaitingListStatus) :
    (setStatusById l wlId st).map (fun e => e.id) = l.map (fun e => e.id) := by
  unfold setStatusById
  apply map_preserves_ids
  intro e _
  split
  · rfl
  · rfl

theorem setStatusById_wf {db : DB} (wlId : Nat) (st : WaitingListStatus)
    (hwf : wfDB db) :
    wfDB { db with waitingList := setStatusById db.waitingList wlId st } := by
  constructor
  · show ((setStatusById db.waitingList wlId st).map (fun e => e.id)).Nodup
    rw [setStatusById_ids]
    exact hwf.1
  · intro e he
    rcases List.mem_map.mp he with ⟨x, hx, rfl⟩
    show (if x.id == wlId then { x with status := st } else x).id < db.nextId
    split
    · exact hwf.2 x hx
    · exact hwf.2 x hx

theorem setStatusById_status_preserve {l : List WaitingListEntry} {wlId : Nat}
    {st : WaitingListStatus} (hst : st ≠ WaitingListStatus.WAITING) {i : Nat}
    (h : ∀ x ∈ l, x.id = i → x.status ≠ WaitingListStatus.WAITING) :
    ∀ x ∈ setStatusById l wlId st, x.id = i → x.status ≠ WaitingListStatus.WAITING := by
  intro x hx hxi
  rcases List.mem_map.mp hx with ⟨y, hy, rfl⟩
  revert hxi
  split
  · intro _
    exact hst
  · intro hyi
    exact h y hy hyi

theorem promote_status_preserve {db : DB} {sid : Nat} {now hrs : Int} {i : Nat}
    (h : ∀ x ∈ db.waitingList, x.id = i → x.status ≠ WaitingListStatus.WAITING) :
    ∀ x ∈ (promote_from_queue db sid now hrs).1.waitingList,
      x.id = i → x.status ≠ WaitingListStatus.WAITING := by
  cases hhead : headWaiting db sid with
  | none =>
    rw [promote_eq_none now hrs hhead]
    exact h
  | some first =>
    rw [promote_eq_some now hrs hhead]
    intro x hx hxi
    rcases List.mem_map.mp hx with ⟨y, hy, rfl⟩
    revert hxi
    unfold promoteShift
    split
    · intro _
      show (assignStamp first now (now + hrs * 3600)).status ≠ WaitingListStatus.WAITING
      simp [assignStamp]
    · split
      · intro hyi
        exact h y hy hyi
      · intro hyi
        exact h y hy hyi

theorem denseList_congr {l l' : List WaitingListEntry} {s : Nat}
    (h : waitingOf l' s = waitingOf l s) (hd : denseList l s) : denseList l' s := by
  unfold denseList positionsOf
  rw [h]
  exact hd

/-- Bundled invariant: well-formed ids and dense positions for every session. -/
def goodDB (d : DB) : Prop :=
  wfDB d ∧ ∀ s, denseList d.waitingList s

theorem confirmCreate_preserves (db : DB) (wl : WaitingListEntry) (now : Int)
    (hwf : wfDB db) (hd : ∀ s, denseList db.waitingList s)
    (hmem : wl ∈ db.waitingList) (hst : wl.status ≠ WaitingListStatus.WAITING) :
    wfDB (confirmCreate db wl now).2 ∧
      ∀ s, denseList (confirmCreate db wl now).2.waitingList s := by
  have hnonw : ∀ x ∈ db.waitingList, x.id = wl.id →
      x.status ≠ WaitingListStatus.WAITING := by
    intro x hx hxi
    have hx' : x = wl := eq_of_id_nodup hwf.1 hx hmem hxi
    rw [hx']
    exact hst
  constructor
  · constructor
    · show ((db.waitingList.map
          (fun e => if e.id == wl.id then confirmStamp now e else e)).map
            (fun e => e.id)).Nodup
      rw [map_preserves_ids (fun e _ => by unfold confirmStamp; split <;> rfl)]
      exact hwf.1
    · intro e he
      rcases List.mem_map.mp he with ⟨x, hx, rfl⟩
      show (if x.id == wl.id then confirmStamp now x else x).id < db.nextId + 1
      have hlt := hwf.2 x hx
      unfold confirmStamp
      split
      · show x.id < db.nextId + 1
        omega
      · omega
  · intro s
    apply denseList_congr _ (hd s)
    exact waitingOf_mapById_of_nonwaiting db.waitingList wl.id (confirmStamp now)
      (fun e => by unfold confirmStamp; exact fun hh => WaitingListStatus.noConfusion hh)
      hnonw s

theorem confirm_preserves (db : DB) (wlId : Nat) (now : Int)
    (hwf : wfDB db) (hd : ∀ s, denseList db.waitingList s) :
    wfDB (confirm_assignment db wlId now).2 ∧
      ∀ s, denseList (confirm_assignment db wlId now).2.waitingList s := by
  suffices h : goodDB (confirm_assignment db wlId now).2 from h
  have hg : goodDB db := ⟨hwf, hd⟩
  unfold confirm_assignment
  split
  · exact hg
  · rename_i wl hfind
    have hmem : wl ∈ db.waitingList := List.mem_of_find?_eq_some hfind
    have hp := List.find?_some hfind
    have hwlid : wl.id = wlId := beq_iff_eq.mp hp
    split
    · exact hg
    · rename_i hstat
      have hassigned : wl.status = WaitingListStatus.ASSIGNED := by
        rw [bne_iff_ne] at hstat
        exact not_not.mp hstat
      have hstw : wl.status ≠ WaitingListStatus.WAITING := by
        rw [hassigned]
        exact fun hh => WaitingListStatus.noConfusion hh
      have hnonw : ∀ x ∈ db.waitingList, x.id = wlId →
          x.status ≠ WaitingListStatus.WAITING := by
        intro x hx hxi
        have hx' : x = wl := eq_of_id_nodup hwf.1 hx hmem (hwlid ▸ hxi)
        rw [hx']
        exact hstw
      split
      · rename_i deadline hdl
        split
        · rename_i hnow
          have hwf1 : wfDB { db with
              waitingList := (setStatusById db.waitingList wlId
                WaitingListStatus.EXPIRED) } :=
            setStatusById_wf wlId _ hwf
          have hd1 : ∀ s, denseList (setStatusById db.waitingList wlId
              WaitingListStatus.EXPIRED) s := by
            intro s
            apply denseList_congr _ (hd s)
            exact waitingOf_setStatusById db.waitingList wlId
              WaitingListStatus.EXPIRED
              (fun hh => WaitingListStatus.noConfusion hh) hnonw s
          exact promote_preserves
            { db with waitingList := (setStatusById db.waitingList wlId
                WaitingListStatus.EXPIRED) }
            wl.classSessionId now 24 hwf1 hd1
        · exact confirmCreate_preserves db wl now hwf hd hmem hstw
      · exact confirmCreate_preserves db wl now hwf hd hmem hstw

theorem expire_fold_preserves (now : Int) (exp : List WaitingListEntry) :
    ∀ st : DB, wfDB st → (∀ s, denseList st.waitingList s) →
      (∀ e ∈ exp, ∀ x ∈ st.waitingList, x.id = e.id →
        x.status ≠ WaitingListStatus.WAITING) →
      wfDB (exp.foldl (fun st e => expireOne st e now) st) ∧
        ∀ s, denseList (exp.foldl (fun st e => expireOne st e now) st).waitingList s := by
  induction exp with
  | nil =>
    intro st hwf hd _
    exact ⟨hwf, hd⟩
  | cons e es ih =>
    intro st hwf hd hinv
    rw [List.foldl_cons]
    have hnonw_e : ∀ x ∈ st.waitingList, x.id = e.id →
        x.status ≠ WaitingListStatus.WAITING :=
      hinv e (List.mem_cons_self e es)
    have hwf1 : wfDB { st with
        waitingList := (setStatusById st.waitingList e.id WaitingListStatus.EXPIRED) } :=
      setStatusById_wf e.id _ hwf
    have hd1 : ∀ s, denseList (setStatusById st.waitingList e.id
        WaitingListStatus.EXPIRED) s := by
      intro s
      apply denseList_congr _ (hd s)
      exact waitingOf_setStatusById st.waitingList e.id WaitingListStatus.EXPIRED
        (fun hh => WaitingListStatus.noConfusion hh) hnonw_e s
    have hpp := promote_preserves
      { st with waitingList := (setStatusById st.waitingList e.id WaitingListStatus.EXPIRED) }
      e.classSessionId now 24 hwf1 hd1
    apply ih (expireOne st e now) hpp.1 hpp.2
    intro e' he' x hx hxi
    have hinv1 : ∀ x ∈ setStatusById st.waitingList e.id WaitingListStatus.EXPIRED,
        x.id = e'.id → x.status ≠ WaitingListStatus.WAITING :=
      setStatusById_status_preserve (fun hh => WaitingListStatus.noConfusion hh)
        (hinv e' (List.mem_cons_of_mem e he'))
    exact promote_status_preserve hinv1 x hx hxi

theorem sweep_preserves (db : DB) (scope : Option Nat) (now : Int)
    (hwf : wfDB db) (hd : ∀ s, denseList db.waitingList s) :
    wfDB (check_expired_assignments db scope now).1 ∧
      ∀ s, denseList (check_expired_assignments db scope now).1.waitingList s := by
  apply expire_fold_preserves now (expiredSnapshot db scope now) db hwf hd
  intro e he x hx hxi
  have hmem : e ∈ db.waitingList := (List.mem_filter.mp he).1
  have hpred := (List.mem_filter.mp he).2
  have hst : e.status = WaitingListStatus.ASSIGNED := by
    simp only [Bool.and_eq_true] at hpred
    exact beq_iff_eq.mp hpred.1.1
  have hx' : x = e := eq_of_id_nodup hwf.1 hx hmem hxi
  rw [hx', hst]
  exact fun hh => WaitingListStatus.noConfusion hh

theorem promote_after_self {db : DB} {sid : Nat} (now hrs : Int)
    {first : WaitingListEntry} (hwf : wfDB db) (hd : denseList db.waitingList sid)
    (hhead : headWaiting db sid = some first) :
    waitingOf (promote_from_queue db sid now hrs).1.waitingList sid
      = ((waitingOf db.waitingList sid).filter (fun e => !(e.id == first.id))).map
          (fun e => { e with position := max 1 (e.position - 1) }) ∧
    (∀ e ∈ (waitingOf db.waitingList sid).filter (fun e => !(e.id == first.id)),
        2 ≤ e.position) ∧
    denseList (promote_from_queue db sid now hrs).1.waitingList sid := by
  rcases headWaiting_spec hhead with ⟨hmemW, _⟩
  have hpos1 : first.position = 1 := headWaiting_pos_one hd hhead
  rw [promote_eq_some now hrs hhead]
  have hpr : (assignStamp first now (now + hrs * 3600)).status ≠
      WaitingListStatus.WAITING := by
    simp [assignStamp]
  have hself := waitingOf_promoteShift_self db.waitingList sid first
    (assignStamp first now (now + hrs * 3600)) hpr
  have hndW : ((waitingOf db.waitingList sid).map (fun e => e.id)).Nodup := by
    apply List.Nodup.sublist _ hwf.1
    exact List.Sublist.map _ (List.filter_sublist _)
  have hpermW : (waitingOf db.waitingList sid).Perm
      (first :: (waitingOf db.waitingList sid).filter (fun e => !(e.id == first.id))) :=
    filter_ne_id_perm hndW hmemW
  set R := (waitingOf db.waitingList sid).filter (fun e => !(e.id == first.id)) with hR
  have hlenW : (waitingOf db.waitingList sid).length = R.length + 1 := by
    have := hpermW.length_eq
    simpa using this
  have hposW : (positionsOf db.waitingList sid).Perm
      (1 :: R.map (fun e => e.position)) := by
    have := hpermW.map (fun e => e.position)
    rw [List.map_cons, hpos1] at this
    exact this
  have hchain : (1 :: R.map (fun e => e.position)).Perm
      (1 :: (posList R.length).map (fun p => p + 1)) := by
    have h1 : (1 :: R.map (fun e => e.position)).Perm
        (posList (waitingOf db.waitingList sid).length) :=
      hposW.symm.trans hd
    rw [hlenW, posList_succ_cons] at h1
    exact h1
  have hRpos : (R.map (fun e => e.position)).Perm
      ((posList R.length).map (fun p => p + 1)) :=
    hchain.cons_inv
  refine ⟨hself, ?_, ?_⟩
  · intro e he
    have hmem1 : e.position ∈ R.map (fun e => e.position) :=
      List.mem_map_of_mem _ he
    have hmem2 : e.position ∈ (posList R.length).map (fun p => p + 1) :=
      hRpos.mem_iff.mp hmem1
    rcases List.mem_map.mp hmem2 with ⟨q, hq, hqe⟩
    have hq1 := (mem_posList.mp hq).1
    omega
  · unfold denseList positionsOf
    rw [hself]
    have hmapmap : ((R.map (fun e =>
          { e with position := max 1 (e.position - 1) })).map (fun e => e.position))
        = (R.map (fun e => e.position)).map (fun p => max 1 (p - 1)) := by
      rw [List.map_map, List.map_map]
      rfl
    rw [hmapmap]
    have hlen2 : (R.map (fun e =>
        { e with position := max 1 (e.position - 1) })).length = R.length := by
      simp
    rw [hlen2]
    have hstep : ((R.map (fun e => e.position)).map (fun p => max 1 (p - 1))).Perm
        (((posList R.length).map (fun p => p + 1)).map (fun p => max 1 (p - 1))) :=
      hRpos.map _
    have hfinal : ((posList R.length).map (fun p => p + 1)).map (fun p => max 1 (p - 1))
        = posList R.length := by
      rw [List.map_map]
      have hpt : ∀ p ∈ posList R.length,
          ((fun p => max 1 (p - 1)) ∘ (fun p => p + 1)) p = id p := by
        intro p hp
        have h1p := (mem_posList.mp hp).1
        simp only [Function.comp_apply, id]
        omega
      rw [List.map_congr_left hpt, List.map_id]
    refine hstep.trans ?_
    rw [hfinal]

theorem denseList_of_sessions (l : List WaitingListEntry)
    (h : ∀ s ∈ l.map (fun e => e.classSessionId), denseList l s) :
    ∀ s, denseList l s := by
  intro s
  by_cases hs : s ∈ l.map (fun e => e.classSessionId)
  · exact h s hs
  · have hempty : waitingOf l s = [] := by
      unfold waitingOf
      apply List.filter_eq_nil_iff.mpr
      intro e he hp
      apply hs
      rcases waitingPred_iff.mp hp with ⟨h1, _⟩
      exact List.mem_map.mpr ⟨e, he, h1⟩
    unfold denseList positionsOf
    rw [hempty]
    exact List.Perm.refl []

/-! ## Concrete fixtures used by witnesses and counterexamples -/

/-- Two waiting members (positions 1 and 2) on an open session, plus a third
member with an active standard plan. -/
def dbTwoWaiting : DB :=
  { sessions := [{ id := 1, status := SessionStatus.OPEN }]
    members := [{ id := 1, fullname := "a" }, { id := 2, fullname := "b" },
                { id := 3, fullname := "c" }]
    enrollments := []
    subscriptions := [{ memberId := 3, planId := 7,
                        status := SubscriptionStatus.ACTIVE }]
    plans := [{ id := 7, planType := PlanType.MONTHLY }]
    waitingList :=
      [{ id := 10, classSessionId := 1, memberId := 1,
         status := WaitingListStatus.WAITING, position := 1, priorityScore := 100,
         createdAt := 0, assignedAt := none, approvalDeadline := none,
         confirmedAt := none, cancelledAt := none },
       { id := 11, classSessionId := 1, memberId := 2,
         status := WaitingListStatus.WAITING, position := 2, priorityScore := 50,
         createdAt := 0, assignedAt := none, approvalDeadline := none,
         confirmedAt := none, cancelledAt := none }]
    nextId := 100 }

/-! ## Claim theorems -/

/-- C1: dense-position invariant.  For a well-formed database whose `WAITING`
positions are dense (exactly `{1..N}`) for every session, each mutating queue
operation — a successful `add_to_waiting_list`, `promote_from_queue`,
`confirm_assignment` (also on its expired path, which mutates before
raising), and the repository expiry sweep `check_expired_assignments` —
leaves every session's `WAITING` positions dense again. -/
theorem dense_position_invariant (db : DB) (hwf : wfDB db)
    (hd : ∀ s, denseQueue db s) :
    (∀ sid mid now nowCalc db' w,
        add_to_waiting_list db sid mid now nowCalc = Except.ok (db', w) →
        ∀ s, denseQueue db' s) ∧
    (∀ sid now hrs, ∀ s, denseQueue (promote_from_queue db sid now hrs).1 s) ∧
    (∀ wlId now, ∀ s, denseQueue (confirm_assignment db wlId now).2 s) ∧
    (∀ scope now, ∀ s, denseQueue (check_expired_assignments db scope now).1 s) := by
  refine ⟨?_, ?_, ?_, ?_⟩
  · intro sid mid now nowCalc db' w h s
    rcases add_ok_inv h with ⟨rfl, -⟩
    exact addInsert_dense db sid mid now nowCalc hd s
  · intro sid now hrs s
    exact (promote_preserves db sid now hrs hwf hd).2 s
  · intro wlId now s
    exact (confirm_preserves db wlId now hwf hd).2 s
  · intro scope now s
    exact (sweep_preserves db scope now hwf hd).2 s

/-- Witness for C1 at a concrete database. -/
theorem dense_position_invariant_witness :
    wfDB dbTwoWaiting ∧ (∀ s, denseQueue dbTwoWaiting s) ∧
      ((∀ sid mid now nowCalc db' w,
          add_to_waiting_list dbTwoWaiting sid mid now nowCalc = Except.ok (db', w) →
          ∀ s, denseQueue db' s) ∧
       (∀ sid now hrs, ∀ s, denseQueue (promote_from_queue dbTwoWaiting sid now hrs).1 s) ∧
       (∀ wlId now, ∀ s, denseQueue (confirm_assignment dbTwoWaiting wlId now).2 s) ∧
       (∀ scope now, ∀ s,
          denseQueue (check_expired_assignments dbTwoWaiting scope now).1 s)) :=
  have hd : ∀ s, denseQueue dbTwoWaiting s :=
    denseList_of_sessions dbTwoWaiting.waitingList (by decide)
  ⟨by decide, hd, dense_position_invariant dbTwoWaiting (by decide) hd⟩

/-- C5: `promote_from_queue` on a session with no `WAITING` entries returns
`none` and leaves the database unchanged; with at least one `WAITING` entry it
transitions exactly the position-1 entry to `ASSIGNED`, stamps
`assignedAt = now` and `approvalDeadline = now + hours * 3600` (the source's
default argument is 24 hours), decrements the position of every remaining
`WAITING` entry of the session by exactly 1, and the positions stay dense.
The only entry of the final state that is `ASSIGNED` without having been
`ASSIGNED` before is the promoted one. -/
theorem promote_spec (db : DB) (sid : Nat) (now hrs : Int)
    (hwf : wfDB db) (hd : denseQueue db sid) :
    (waitingFor db sid = [] → promote_from_queue db sid now hrs = (db, none)) ∧
    (waitingFor db sid ≠ [] →
      ∃ f ∈ waitingFor db sid, f.position = 1 ∧
        (promote_from_queue db sid now hrs).2
          = some { f with
                   status := WaitingListStatus.ASSIGNED,
                   assignedAt := some now,
                   approvalDeadline := some (now + hrs * 3600) } ∧
        waitingFor (promote_from_queue db sid now hrs).1 sid
          = ((waitingFor db sid).filter (fun e => !(e.id == f.id))).map
              (fun e => { e with position := e.position - 1 }) ∧
        denseQueue (promote_from_queue db sid now hrs).1 sid ∧
        (∀ x ∈ (promote_from_queue db sid now hrs).1.waitingList,
          x.status = WaitingListStatus.ASSIGNED →
            x.id = f.id ∨
              ∃ y ∈ db.waitingList, y.id = x.id ∧
                y.status = WaitingListStatus.ASSIGNED)) := by
  constructor
  · intro hempty
    exact promote_eq_none now hrs (headWaiting_none_iff.mpr hempty)
  · intro hne
    obtain ⟨f, hhead⟩ : ∃ f, headWaiting db sid = some f := by
      cases hh : headWaiting db sid with
      | none => exact absurd (headWaiting_none_iff.mp hh) hne
      | some f => exact ⟨f, rfl⟩
    rcases headWaiting_spec hhead with ⟨hmemW, _⟩
    rcases promote_after_self now hrs hwf hd hhead with ⟨hself, h2, hdense⟩
    refine ⟨f, hmemW, headWaiting_pos_one hd hhead, ?_, ?_, hdense, ?_⟩
    · rw [promote_eq_some now hrs hhead]
      rfl
    · show waitingOf (promote_from_queue db sid now hrs).1.waitingList sid = _
      rw [hself]
      apply List.map_congr_left
      intro e he
      have h2e := h2 e he
      have hmax : max 1 (e.position - 1) = e.position - 1 :=
        max_eq_right (by omega)
      rw [hmax]
    · rw [promote_eq_some now hrs hhead]
      intro x hx hxst
      rcases List.mem_map.mp hx with ⟨y, hy, rfl⟩
      revert hxst
      unfold promoteShift
      split
      · intro _
        exact Or.inl rfl
      · split
        · rename_i hcond
          intro hxst
          have hyw : y.status = WaitingListStatus.WAITING := by
            simp only [Bool.and_eq_true] at hcond
            exact beq_iff_eq.mp hcond.2
          have hya : y.status = WaitingListStatus.ASSIGNED := hxst
          rw [hyw] at hya
          exact WaitingListStatus.noConfusion hya
        · intro hxst
          exact Or.inr ⟨y, hy, rfl, hxst⟩

/-- Witness for C5 at a concrete database with a non-empty queue. -/
theorem promote_spec_witness :
    wfDB dbTwoWaiting ∧ denseQueue dbTwoWaiting 1 ∧
      ((waitingFor dbTwoWaiting 1 = [] →
          promote_from_queue dbTwoWaiting 1 500 24 = (dbTwoWaiting, none)) ∧
       (waitingFor dbTwoWaiting 1 ≠ [] →
        ∃ f ∈ waitingFor dbTwoWaiting 1, f.position = 1 ∧
          (promote_from_queue dbTwoWaiting 1 500 24).2
            = some { f with
                     status := WaitingListStatus.ASSIGNED,
                     assignedAt := some 500,
                     approvalDeadline := some (500 + 24 * 3600) } ∧
          waitingFor (promote_from_queue dbTwoWaiting 1 500 24).1 1
            = ((waitingFor dbTwoWaiting 1).filter (fun e => !(e.id == f.id))).map
                (fun e => { e with position := e.position - 1 }) ∧
          denseQueue (promote_from_queue dbTwoWaiting 1 500 24).1 1 ∧
          (∀ x ∈ (promote_from_queue dbTwoWaiting 1 500 24).1.waitingList,
            x.status = WaitingListStatus.ASSIGNED →
              x.id = f.id ∨
                ∃ y ∈ dbTwoWaiting.waitingList, y.id = x.id ∧
                  y.status = WaitingListStatus.ASSIGNED))) :=
  ⟨by decide, by decide, promote_spec dbTwoWaiting 1 500 24 (by decide) (by decide)⟩

/-- `calculate_priority_score` written as tier base plus truncated hour
count (shared helper). -/
theorem calculate_priority_score_eq (db : DB) (memberId : Nat) (createdAt t : Int) :
    calculate_priority_score db memberId createdAt t
      = (match activeSubPlan db memberId with
         | some plan => if plan.planType = PlanType.VIP then 1000 else 100
         | none => 0)
        + Int.tdiv (t - createdAt) 3600 := by
  unfold calculate_priority_score
  cases hsub : activeSubPlan db memberId with
  | none => rfl
  | some plan =>
    by_cases hv : plan.planType = PlanType.VIP
    · have h1 : (plan.planType == PlanType.VIP) = true := beq_iff_eq.mpr hv
      show (if (plan.planType == PlanType.VIP) = true then (1000 : Int) else 100)
          + Int.tdiv (t - createdAt) 3600
        = (if plan.planType = PlanType.VIP then (1000 : Int) else 100)
          + Int.tdiv (t - createdAt) 3600
      rw [if_pos h1, if_pos hv]
    · have h1 : (plan.planType == PlanType.VIP) = false := beq_eq_false_iff_ne.mpr hv
      show (if (plan.planType == PlanType.VIP) = true then (1000 : Int) else 100)
          + Int.tdiv (t - createdAt) 3600
        = (if plan.planType = PlanType.VIP then (1000 : Int) else 100)
          + Int.tdiv (t - createdAt) 3600
      rw [if_neg (by simp [h1]), if_neg hv]

theorem tierBase_nonneg (db : DB) (memberId : Nat) :
    (0 : Int) ≤ (match activeSubPlan db memberId with
      | some plan => if plan.planType = PlanType.VIP then 1000 else 100
      | none => 0) := by
  cases activeSubPlan db memberId with
  | none => norm_num
  | some plan =>
    show (0 : Int) ≤ if plan.planType = PlanType.VIP then 1000 else 100
    split <;> norm_num

/-- C7: for any member and any pair of timestamps with `enqueuedAt ≤ now`,
`calculate_priority_score` equals a tier base plus the whole number of hours
elapsed: the base is 1000 when the member's active subscription's plan is VIP,
100 for any other active subscription, and 0 with no active subscription.
The score has no upper bound: it exceeds any given bound for a late enough
`now`. -/
theorem priority_score_spec (db : DB) (memberId : Nat) (createdAt now : Int)
    (h : createdAt ≤ now) :
    calculate_priority_score db memberId createdAt now
      = (match activeSubPlan db memberId with
         | some plan => if plan.planType = PlanType.VIP then 1000 else 100
         | none => 0)
        + (((now - createdAt).toNat / 3600 : Nat) : Int) ∧
    (∀ bound : Int, ∃ later : Int, createdAt ≤ later ∧
        bound < calculate_priority_score db memberId createdAt later) := by
  have hbase := calculate_priority_score_eq db memberId createdAt
  have htd : ∀ t : Int, createdAt ≤ t →
      Int.tdiv (t - createdAt) 3600 = (((t - createdAt).toNat / 3600 : Nat) : Int) := by
    intro t ht
    have hd0 : (0 : Int) ≤ t - createdAt := by omega
    have hcast : t - createdAt = ((t - createdAt).toNat : Int) :=
      (Int.toNat_of_nonneg hd0).symm
    rw [hcast]
    rfl
  constructor
  · rw [hbase now, htd now h]
  · intro bound
    refine ⟨createdAt + ((bound.toNat : Int) + 1) * 3600, by omega, ?_⟩
    rw [hbase (createdAt + ((bound.toNat : Int) + 1) * 3600)]
    have harg : createdAt + ((bound.toNat : Int) + 1) * 3600 - createdAt
        = ((bound.toNat : Int) + 1) * 3600 := by ring
    rw [harg, Int.mul_tdiv_cancel _ (by norm_num)]
    have hb0 : (0 : Int) ≤ (match activeSubPlan db memberId with
        | some plan => if plan.planType = PlanType.VIP then 1000 else 100
        | none => 0) := by
      cases activeSubPlan db memberId with
      | none => norm_num
      | some plan =>
        show (0 : Int) ≤ if plan.planType = PlanType.VIP then 1000 else 100
        split <;> norm_num
    omega

/-- Witness for C7 at a concrete database and timestamps. -/
theorem priority_score_spec_witness :
    (0 : Int) ≤ 7200 ∧
      (calculate_priority_score dbTwoWaiting 3 0 7200
          = (match activeSubPlan dbTwoWaiting 3 with
             | some plan => if plan.planType = PlanType.VIP then 1000 else 100
             | none => 0)
            + ((((7200 : Int) - 0).toNat / 3600 : Nat) : Int) ∧
       (∀ bound : Int, ∃ later : Int, (0 : Int) ≤ later ∧
          bound < calculate_priority_score dbTwoWaiting 3 0 later)) :=
  ⟨by norm_num, priority_score_spec dbTwoWaiting 3 0 7200 (by norm_num)⟩

theorem tdiv_eq_zero_of_small {d : Int} (h0 : 0 ≤ d) (h1 : d < 3600) :
    Int.tdiv d 3600 = 0 := by
  have hcast : d = (d.toNat : Int) := (Int.toNat_of_nonneg h0).symm
  have hlt : d.toNat < 3600 := by omega
  rw [hcast]
  show ((d.toNat / 3600 : Nat) : Int) = 0
  rw [Nat.div_eq_of_lt hlt]
  rfl

/-- An entry of `l'` carries the same stored `priorityScore` as an entry of
`l` with the same id: stored scores are never recomputed. -/
def scoreTraceable (l l' : List WaitingListEntry) : Prop :=
  ∀ x ∈ l', ∃ y ∈ l, y.id = x.id ∧ x.priorityScore = y.priorityScore

theorem scoreTraceable_refl (l : List WaitingListEntry) : scoreTraceable l l :=
  fun x hx => ⟨x, hx, rfl, rfl⟩

theorem scoreTraceable_trans {l₁ l₂ l₃ : List WaitingListEntry}
    (h12 : scoreTraceable l₁ l₂) (h23 : scoreTraceable l₂ l₃) :
    scoreTraceable l₁ l₃ := by
  intro x hx
  rcases h23 x hx with ⟨y, hy, hid, hsc⟩
  rcases h12 y hy with ⟨z, hz, hid', hsc'⟩
  exact ⟨z, hz, by rw [hid', hid], by rw [hsc, hsc']⟩

theorem promote_scoreTraceable (db : DB) (sid : Nat) (now hrs : Int) :
    scoreTraceable db.waitingList (promote_from_queue db sid now hrs).1.waitingList := by
  cases hhead : headWaiting db sid with
  | none =>
    rw [promote_eq_none now hrs hhead]
    exact scoreTraceable_refl _
  | some first =>
    rw [promote_eq_some now hrs hhead]
    intro x hx
    rcases List.mem_map.mp hx with ⟨y, hy, rfl⟩
    have hfm : first ∈ db.waitingList :=
      (List.mem_filter.mp (headWaiting_spec hhead).1).1
    unfold promoteShift
    split
    · exact ⟨first, hfm, rfl, rfl⟩
    · split
      · exact ⟨y, hy, rfl, rfl⟩
      · exact ⟨y, hy, rfl, rfl⟩

theorem mapById_scoreTraceable (l : List WaitingListEntry) (wlId : Nat)
    (f : WaitingListEntry → WaitingListEntry)
    (hf : ∀ e, (f e).id = e.id ∧ (f e).priorityScore = e.priorityScore) :
    scoreTraceable l (l.map (fun e => if e.id == wlId then f e else e)) := by
  intro x hx
  rcases List.mem_map.mp hx with ⟨y, hy, rfl⟩
  by_cases hid : (y.id == wlId) = true
  · rw [if_pos hid]
    exact ⟨y, hy, ((hf y).1).symm, (hf y).2⟩
  · rw [if_neg hid]
    exact ⟨y, hy, rfl, rfl⟩

theorem setStatusById_scoreTraceable (l : List WaitingListEntry) (wlId : Nat)
    (st : WaitingListStatus) :
    scoreTraceable l (setStatusById l wlId st) :=
  mapById_scoreTraceable l wlId (fun e => { e with status := st })
    (fun _ => ⟨rfl, rfl⟩)

theorem confirm_scoreTraceable (db : DB) (wlId : Nat) (now : Int) :
    scoreTraceable db.waitingList (confirm_assignment db wlId now).2.waitingList := by
  unfold confirm_assignment
  split
  · exact scoreTraceable_refl _
  · rename_i wl hfind
    split
    · exact scoreTraceable_refl _
    · split
      · rename_i deadline hdl
        split
        · exact scoreTraceable_trans
            (setStatusById_scoreTraceable db.waitingList wlId WaitingListStatus.EXPIRED)
            (promote_scoreTraceable
              { db with waitingList := (setStatusById db.waitingList wlId
                  WaitingListStatus.EXPIRED) }
              wl.classSessionId now 24)
        · exact mapById_scoreTraceable db.waitingList wl.id (confirmStamp now)
            (fun _ => ⟨rfl, rfl⟩)
      · exact mapById_scoreTraceable db.waitingList wl.id (confirmStamp now)
          (fun _ => ⟨rfl, rfl⟩)

theorem sweep_scoreTraceable (db : DB) (scope : Option Nat) (now : Int) :
    scoreTraceable db.waitingList (check_expired_assignments db scope now).1.waitingList := by
  unfold check_expired_assignments
  generalize expiredSnapshot db scope now = exp
  induction exp generalizing db with
  | nil => exact scoreTraceable_refl _
  | cons e es ih =>
    show scoreTraceable db.waitingList
      (List.foldl (fun st e => expireOne st e now) db (e :: es)).waitingList
    rw [List.foldl_cons]
    have ihe := ih (expireOne db e now)
    have hstep : scoreTraceable db.waitingList (expireOne db e now).waitingList :=
      scoreTraceable_trans
        (setStatusById_scoreTraceable db.waitingList e.id WaitingListStatus.EXPIRED)
        (promote_scoreTraceable
          { db with waitingList := (setStatusById db.waitingList e.id
              WaitingListStatus.EXPIRED) }
          e.classSessionId now 24)
    exact scoreTraceable_trans hstep ihe

/-- C10 (implicit): every stored `priorityScore` at creation time equals the
subscription tier base alone (1000, 100, or 0).  `add_to_waiting_list` passes
its freshly read clock as `created_at` to `calculate_priority_score`, whose
own clock read happens less than an hour later in the same call, so the
whole-hours wait bonus is 0; and no operation ever recomputes a stored score:
after `add`, `promote`, `confirm`, or the sweep, every surviving entry keeps
the score of the same-id entry of the previous state. -/
theorem stored_score_is_tier_base (db : DB) (sid mid : Nat) (now nowCalc : Int)
    (h1 : now ≤ nowCalc) (h2 : nowCalc - now < 3600) :
    (∀ db' w, add_to_waiting_list db sid mid now nowCalc = Except.ok (db', w) →
        w.priorityScore
          = (match activeSubPlan db mid with
             | some plan => if plan.planType = PlanType.VIP then 1000 else 100
             | none => 0)) ∧
    (∀ db' w, add_to_waiting_list db sid mid now nowCalc = Except.ok (db', w) →
        ∀ x ∈ db'.waitingList, x.id = w.id ∨
          ∃ y ∈ db.waitingList, y.id = x.id ∧ x.priorityScore = y.priorityScore) ∧
    (∀ s nowP hrs, scoreTraceable db.waitingList
        (promote_from_queue db s nowP hrs).1.waitingList) ∧
    (∀ wlId nowC, scoreTraceable db.waitingList
        (confirm_assignment db wlId nowC).2.waitingList) ∧
    (∀ scope nowS, scoreTraceable db.waitingList
        (check_expired_assignments db scope nowS).1.waitingList) := by
  refine ⟨?_, ?_, fun s nowP hrs => promote_scoreTraceable db s nowP hrs,
    fun wlId nowC => confirm_scoreTraceable db wlId nowC,
    fun scope nowS => sweep_scoreTraceable db scope nowS⟩
  · intro db' w h
    rcases add_ok_inv h with ⟨-, rfl⟩
    show addScore db mid now nowCalc = _
    unfold addScore
    rw [calculate_priority_score_eq,
      tdiv_eq_zero_of_small (by omega) (by omega), add_zero]
  · intro db' w h x hx
    rcases add_ok_inv h with ⟨rfl, rfl⟩
    rcases List.mem_append.mp hx with hmap | hnew
    · rcases List.mem_map.mp hmap with ⟨y, hy, rfl⟩
      right
      refine ⟨y, hy, (shiftEntry_id_preserve _ _ y).symm, ?_⟩
      unfold shiftEntry
      split
      · rfl
      · rfl
    · left
      rcases List.mem_singleton.mp hnew with rfl
      rfl

/-- Witness for C10 at a concrete database and timestamps. -/
theorem stored_score_is_tier_base_witness :
    (1000 : Int) ≤ 1000 ∧ (1000 : Int) - 1000 < 3600 ∧
      ((∀ db' w, add_to_waiting_list dbTwoWaiting 1 3 1000 1000 = Except.ok (db', w) →
          w.priorityScore
            = (match activeSubPlan dbTwoWaiting 3 with
               | some plan => if plan.planType = PlanType.VIP then 1000 else 100
               | none => 0)) ∧
       (∀ db' w, add_to_waiting_list dbTwoWaiting 1 3 1000 1000 = Except.ok (db', w) →
          ∀ x ∈ db'.waitingList, x.id = w.id ∨
            ∃ y ∈ dbTwoWaiting.waitingList, y.id = x.id ∧
              x.priorityScore = y.priorityScore) ∧
       (∀ s nowP hrs, scoreTraceable dbTwoWaiting.waitingList
          (promote_from_queue dbTwoWaiting s nowP hrs).1.waitingList) ∧
       (∀ wlId nowC, scoreTraceable dbTwoWaiting.waitingList
          (confirm_assignment dbTwoWaiting wlId nowC).2.waitingList) ∧
       (∀ scope nowS, scoreTraceable dbTwoWaiting.waitingList
          (check_expired_assignments dbTwoWaiting scope nowS).1.waitingList)) :=
  ⟨by norm_num, by norm_num,
   stored_score_is_tier_base dbTwoWaiting 1 3 1000 1000 le_rfl (by norm_num)⟩

/-- C2 (code bug): every call of the service-layer sweep fails before any
queue work happens.  `WaitingListService.check_expired_assignments` invokes
`self.waiting_list_repo.expire_assignments(session_id)`, but the repository
class `db_waiting_list` defines no attribute of that name (its sweep is
called `check_expired_assignments`), so the attribute lookup raises
`AttributeError` for every database state, scope and time, and the caller
never receives the count of processed entries. -/
theorem service_sweep_raises_attribute_error (db : DB) (scope : Option Nat) (now : Int) :
    service_check_expired_assignments db scope now
      = PyCall.attributeError "expire_assignments" ∧
    serviceSweepTargetMethod ∉ db_waiting_list_methods := by
  constructor
  · rfl
  · decide

/-- The Bool row predicate "open ASSIGNED entry of this session". -/
def assignedPred (sid : Nat) (e : WaitingListEntry) : Bool :=
  e.classSessionId == sid && e.status == WaitingListStatus.ASSIGNED

/-- C6 counterexample: on a concrete session with two `WAITING` entries, two
consecutive `promote_from_queue` calls (no intervening confirm, cancel or
expiry) produce a state with two open `ASSIGNED` entries, different from the
state after one call — `promote_from_queue` is not idempotent in effect. -/
theorem promote_not_idempotent_counterexample :
    ((promote_from_queue
        (promote_from_queue dbTwoWaiting 1 500 24).1 1 500 24).1.waitingList.filter
          (assignedPred 1)).length = 2 ∧
    ((promote_from_queue dbTwoWaiting 1 500 24).1.waitingList.filter
          (assignedPred 1)).length = 1 ∧
    (promote_from_queue
        (promote_from_queue dbTwoWaiting 1 500 24).1 1 500 24).1
      ≠ (promote_from_queue dbTwoWaiting 1 500 24).1 := by
  refine ⟨by decide, by decide, by decide⟩

/-- C6 amended: `promote_from_queue` has no idempotency guard.  Whenever the
session still has a `WAITING` entry, a promote call assigns it even when an
`ASSIGNED` entry is already open, increasing the session's count of open
`ASSIGNED` entries by exactly one; keeping at most one open `ASSIGNED` entry
per session is a caller obligation the repository does not enforce. -/
theorem promote_increments_assigned_count (db : DB) (sid : Nat) (now hrs : Int)
    (hwf : wfDB db) (hne : waitingFor db sid ≠ []) :
    ((promote_from_queue db sid now hrs).1.waitingList.filter
        (assignedPred sid)).length
      = (db.waitingList.filter (assignedPred sid)).length + 1 := by
  obtain ⟨f, hhead⟩ : ∃ f, headWaiting db sid = some f := by
    cases hh : headWaiting db sid with
    | none => exact absurd (headWaiting_none_iff.mp hh) hne
    | some f => exact ⟨f, rfl⟩
  rcases headWaiting_spec hhead with ⟨hmemW, _⟩
  have hmemL : f ∈ db.waitingList := (List.mem_filter.mp hmemW).1
  have hpredW : waitingPred sid f = true := (List.mem_filter.mp hmemW).2
  have hfs : f.classSessionId = sid := (waitingPred_iff.mp hpredW).1
  have hfw : f.status = WaitingListStatus.WAITING := (waitingPred_iff.mp hpredW).2
  rw [promote_eq_some now hrs hhead]
  set promoted := assignStamp f now (now + hrs * 3600) with hpromoted
  have hperm : db.waitingList.Perm
      (f :: db.waitingList.filter (fun e => !(e.id == f.id))) :=
    filter_ne_id_perm hwf.1 hmemL
  set R := db.waitingList.filter (fun e => !(e.id == f.id)) with hR
  have hq : ∀ e ∈ R, assignedPred sid (promoteShift sid f promoted e)
      = assignedPred sid e := by
    intro e he
    have hidne : (e.id == f.id) = false := by
      have h := (List.mem_filter.mp he).2
      simpa using h
    unfold promoteShift
    rw [if_neg (by simp [hidne])]
    split
    · rfl
    · rfl
  have hqp : assignedPred sid promoted = true := by
    rw [hpromoted]
    simp [assignedPred, assignStamp, hfs]
  have hqf : assignedPred sid f = false := by
    simp [assignedPred, hfw]
  have h1 : ((db.waitingList.map (promoteShift sid f promoted)).filter
        (assignedPred sid)).length
      = (((f :: R).map (promoteShift sid f promoted)).filter
          (assignedPred sid)).length :=
    ((hperm.map (promoteShift sid f promoted)).filter (assignedPred sid)).length_eq
  have hgf : promoteShift sid f promoted f = promoted := by
    unfold promoteShift
    rw [if_pos (beq_self_eq_true f.id)]
  have h2 : ((f :: R).map (promoteShift sid f promoted)).filter (assignedPred sid)
      = promoted :: ((R.map (promoteShift sid f promoted)).filter (assignedPred sid)) := by
    rw [List.map_cons, hgf, List.filter_cons_of_pos hqp]
  have h3 : (R.map (promoteShift sid f promoted)).filter (assignedPred sid)
      = (R.filter (assignedPred sid)).map (promoteShift sid f promoted) :=
    filter_map_of_preserve hq
  have h4 : (db.waitingList.filter (assignedPred sid)).length
      = ((f :: R).filter (assignedPred sid)).length :=
    (hperm.filter (assignedPred sid)).length_eq
  have h5 : (f :: R).filter (assignedPred sid) = R.filter (assignedPred sid) :=
    List.filter_cons_of_neg (by simp [hqf])
  rw [h1, h2, h3, h4, h5]
  simp

/-- Witness for the amended C6 at a concrete database. -/
theorem promote_increments_assigned_count_witness :
    wfDB dbTwoWaiting ∧ waitingFor dbTwoWaiting 1 ≠ [] ∧
      ((promote_from_queue dbTwoWaiting 1 500 24).1.waitingList.filter
          (assignedPred 1)).length
        = (dbTwoWaiting.waitingList.filter (assignedPred 1)).length + 1 :=
  ⟨by decide, by decide,
   promote_increments_assigned_count dbTwoWaiting 1 500 24 (by decide) (by decide)⟩

theorem find?_id_eq {l : List WaitingListEntry}
    (hnd : (l.map (fun e => e.id)).Nodup) {e : WaitingListEntry} (he : e ∈ l)
    {wlId : Nat} (hid : e.id = wlId) :
    l.find? (fun x => x.id == wlId) = some e := by
  induction l with
  | nil => cases he
  | cons a as ih =>
    simp only [List.map_cons, List.nodup_cons, List.mem_map] at hnd
    by_cases ha : (a.id == wlId) = true
    · rw [@List.find?_cons_of_pos _ (fun x => x.id == wlId) a as ha]
      rcases List.mem_cons.mp he with rfl | he'
      · rfl
      · exfalso
        exact hnd.1 ⟨e, he', by rw [hid, ← beq_iff_eq.mp ha]⟩
    · rw [@List.find?_cons_of_neg _ (fun x => x.id == wlId) a as ha]
      rcases List.mem_cons.mp he with rfl | he'
      · exact absurd (beq_iff_eq.mpr hid) ha
      · exact ih hnd.2 he'

theorem setStatusById_sets {l : List WaitingListEntry} {wlId : Nat}
    {st : WaitingListStatus} :
    ∀ x ∈ setStatusById l wlId st, x.id = wlId → x.status = st := by
  intro x hx hxi
  rcases List.mem_map.mp hx with ⟨z, hz, rfl⟩
  revert hxi
  split
  · intro _
    rfl
  · rename_i hzid
    intro hzi
    exact absurd (beq_iff_eq.mpr hzi) hzid

theorem setStatusById_assigned_trace {l : List WaitingListEntry} {wlId : Nat} {y : WaitingListEntry}
    (hy : y ∈ setStatusById l wlId WaitingListStatus.EXPIRED)
    (hys : y.status = WaitingListStatus.ASSIGNED) :
    (∃ z ∈ l, z.id = y.id ∧ z.status = WaitingListStatus.ASSIGNED) ∧ y.id ≠ wlId := by
  rcases List.mem_map.mp hy with ⟨z, hz, rfl⟩
  revert hys
  split
  · intro hys
    exact absurd hys (fun hh => WaitingListStatus.noConfusion hh)
  · rename_i hzid
    intro hys
    refine ⟨⟨z, hz, rfl, hys⟩, ?_⟩
    intro hzi
    exact absurd (beq_iff_eq.mpr hzi) hzid

theorem promote_keeps_nonwaiting {db : DB} {sid : Nat} (now hrs : Int)
    (hnd : (db.waitingList.map (fun e => e.id)).Nodup)
    {x : WaitingListEntry} (hx : x ∈ db.waitingList)
    (hxs : x.status ≠ WaitingListStatus.WAITING) :
    x ∈ (promote_from_queue db sid now hrs).1.waitingList := by
  cases hhead : headWaiting db sid with
  | none =>
    rw [promote_eq_none now hrs hhead]
    exact hx
  | some first =>
    rw [promote_eq_some now hrs hhead]
    have hfm : first ∈ db.waitingList :=
      (List.mem_filter.mp (headWaiting_spec hhead).1).1
    have hfw : first.status = WaitingListStatus.WAITING :=
      (waitingPred_iff.mp (List.mem_filter.mp (headWaiting_spec hhead).1).2).2
    have hxg : promoteShift sid first (assignStamp first now (now + hrs * 3600)) x = x := by
      unfold promoteShift
      have hidne : (x.id == first.id) = false := by
        apply beq_eq_false_iff_ne.mpr
        intro hxi
        exact hxs ((eq_of_id_nodup hnd hx hfm hxi) ▸ hfw)
      have hwne : (x.status == WaitingListStatus.WAITING) = false :=
        beq_eq_false_iff_ne.mpr hxs
      rw [if_neg (by simp [hidne]), if_neg (by simp [hwne])]
    exact hxg ▸ List.mem_map_of_mem _ hx

theorem promote_keeps_status {db : DB} {sid : Nat} (now hrs : Int) {i : Nat}
    {st : WaitingListStatus} (hstw : st ≠ WaitingListStatus.WAITING)
    (h : ∀ x ∈ db.waitingList, x.id = i → x.status = st) :
    ∀ x ∈ (promote_from_queue db sid now hrs).1.waitingList,
      x.id = i → x.status = st := by
  cases hhead : headWaiting db sid with
  | none =>
    rw [promote_eq_none now hrs hhead]
    exact h
  | some first =>
    rw [promote_eq_some now hrs hhead]
    have hfm : first ∈ db.waitingList :=
      (List.mem_filter.mp (headWaiting_spec hhead).1).1
    have hfw : first.status = WaitingListStatus.WAITING :=
      (waitingPred_iff.mp (List.mem_filter.mp (headWaiting_spec hhead).1).2).2
    intro x hx hxi
    rcases List.mem_map.mp hx with ⟨y, hy, rfl⟩
    revert hxi
    unfold promoteShift
    split
    · rename_i hyid
      intro hxi
      have hfi : first.id = i := hxi
      have h1 := h first hfm hfi
      rw [hfw] at h1
      exact absurd h1.symm hstw
    · split
      · rename_i hcond
        intro hxi
        have hyw : y.status = WaitingListStatus.WAITING := by
          simp only [Bool.and_eq_true] at hcond
          exact beq_iff_eq.mp hcond.2
        have := h y hy hxi
        rw [hyw] at this
        exact absurd this.symm hstw
      · intro hxi
        exact h y hy hxi

theorem promote_new_assigned {db : DB} {sid : Nat} (now hrs : Int)
    {first : WaitingListEntry} (hhead : headWaiting db sid = some first) :
    ∀ x ∈ (promote_from_queue db sid now hrs).1.waitingList,
      x.status = WaitingListStatus.ASSIGNED →
        x.id = first.id ∨
          ∃ y ∈ db.waitingList, y.id = x.id ∧
            y.status = WaitingListStatus.ASSIGNED := by
  rw [promote_eq_some now hrs hhead]
  intro x hx hxst
  rcases List.mem_map.mp hx with ⟨y, hy, rfl⟩
  revert hxst
  unfold promoteShift
  split
  · intro _
    exact Or.inl rfl
  · split
    · rename_i hcond
      intro hxst
      have hyw : y.status = WaitingListStatus.WAITING := by
        simp only [Bool.and_eq_true] at hcond
        exact beq_iff_eq.mp hcond.2
      have hya : y.status = WaitingListStatus.ASSIGNED := hxst
      rw [hyw] at hya
      exact WaitingListStatus.noConfusion hya
    · intro hxst
      exact Or.inr ⟨y, hy, rfl, hxst⟩

theorem promoted_mem {db : DB} {sid : Nat} (now hrs : Int)
    {first : WaitingListEntry} (hhead : headWaiting db sid = some first) :
    assignStamp first now (now + hrs * 3600)
      ∈ (promote_from_queue db sid now hrs).1.waitingList := by
  rw [promote_eq_some now hrs hhead]
  have hfm : first ∈ db.waitingList :=
    (List.mem_filter.mp (headWaiting_spec hhead).1).1
  have hgf : promoteShift sid first (assignStamp first now (now + hrs * 3600)) first
      = assignStamp first now (now + hrs * 3600) := by
    unfold promoteShift
    rw [if_pos (beq_self_eq_true first.id)]
  have hmm : promoteShift sid first (assignStamp first now (now + hrs * 3600)) first
      ∈ db.waitingList.map
          (promoteShift sid first (assignStamp first now (now + hrs * 3600))) :=
    List.mem_map_of_mem _ hfm
  rw [hgf] at hmm
  exact hmm

theorem promote_enrollments (db : DB) (sid : Nat) (now hrs : Int) :
    (promote_from_queue db sid now hrs).1.enrollments = db.enrollments := by
  cases hhead : headWaiting db sid with
  | none => rw [promote_eq_none now hrs hhead]
  | some first => rw [promote_eq_some now hrs hhead]

/-- C3: confirming an `ASSIGNED` entry whose `approvalDeadline` has passed
(`now > approvalDeadline`) always fails with the expired-deadline `AppError`,
persists the transition of that entry to `EXPIRED` despite the error, creates
no enrollment, and — when the same session had any `WAITING` entry — makes
exactly one other entry (the previous position-1 `WAITING` entry) `ASSIGNED`;
with no `WAITING` entry, no entry newly becomes `ASSIGNED`. -/
theorem confirm_expired_spec (db : DB) (wlId : Nat) (now dl : Int)
    (e : WaitingListEntry) (hwf : wfDB db) (hd : denseQueue db e.classSessionId)
    (hmem : e ∈ db.waitingList) (hide : e.id = wlId)
    (hste : e.status = WaitingListStatus.ASSIGNED)
    (hdle : e.approvalDeadline = some dl) (hnow : dl < now) :
    (confirm_assignment db wlId now).1
      = Except.error (AppErr.AppError
          "Approval deadline has passed. Spot has been given to next in queue.") ∧
    (∀ x ∈ (confirm_assignment db wlId now).2.waitingList,
        x.id = wlId → x.status = WaitingListStatus.EXPIRED) ∧
    (∃ x ∈ (confirm_assignment db wlId now).2.waitingList, x.id = wlId) ∧
    (confirm_assignment db wlId now).2.enrollments = db.enrollments ∧
    (waitingFor db e.classSessionId ≠ [] →
      ∃ p ∈ waitingFor db e.classSessionId,
        p.position = 1 ∧ p.status = WaitingListStatus.WAITING ∧
        (∃ x ∈ (confirm_assignment db wlId now).2.waitingList,
            x.id = p.id ∧ x.status = WaitingListStatus.ASSIGNED) ∧
        (∀ x ∈ (confirm_assignment db wlId now).2.waitingList,
            x.status = WaitingListStatus.ASSIGNED →
              x.id = p.id ∨
                ((∃ y ∈ db.waitingList, y.id = x.id ∧
                    y.status = WaitingListStatus.ASSIGNED) ∧ x.id ≠ wlId))) ∧
    (waitingFor db e.classSessionId = [] →
      ∀ x ∈ (confirm_assignment db wlId now).2.waitingList,
        x.status = WaitingListStatus.ASSIGNED →
          (∃ y ∈ db.waitingList, y.id = x.id ∧
              y.status = WaitingListStatus.ASSIGNED) ∧ x.id ≠ wlId) := by
  have hfind : db.waitingList.find? (fun x => x.id == wlId) = some e :=
    find?_id_eq hwf.1 hmem hide
  have hbne : (e.status != WaitingListStatus.ASSIGNED) = false := by
    rw [hste]
    rfl
  have hred : confirm_assignment db wlId now
      = (Except.error (AppErr.AppError
          "Approval deadline has passed. Spot has been given to next in queue."),
         (promote_from_queue
            { db with waitingList := (setStatusById db.waitingList wlId
                WaitingListStatus.EXPIRED) }
            e.classSessionId now 24).1) := by
    unfold confirm_assignment
    split
    · rename_i heq
      rw [heq] at hfind
      exact Option.noConfusion hfind
    · rename_i wl heq
      rw [heq] at hfind
      have hwe : wl = e := Option.some_inj.mp hfind
      subst hwe
      split
      · rename_i hstat
        rw [hbne] at hstat
        exact absurd hstat Bool.false_ne_true
      · split
        · rename_i deadline hdl2
          rw [hdle] at hdl2
          have hde : dl = deadline := Option.some_inj.mp hdl2
          subst hde
          split
          · rfl
          · rename_i hn
            exact absurd hnow hn
        · rename_i hdl2
          rw [hdle] at hdl2
          exact Option.noConfusion hdl2
  rw [hred]
  have hnonw : ∀ x ∈ db.waitingList, x.id = wlId →
      x.status ≠ WaitingListStatus.WAITING := by
    intro x hx hxi
    have hx' : x = e := eq_of_id_nodup hwf.1 hx hmem (hxi.trans hide.symm)
    rw [hx', hste]
    exact fun hh => WaitingListStatus.noConfusion hh
  have hnd1 : (((setStatusById db.waitingList wlId
      WaitingListStatus.EXPIRED)).map (fun e => e.id)).Nodup := by
    rw [setStatusById_ids]
    exact hwf.1
  have hwOf : ∀ s, waitingOf (setStatusById db.waitingList wlId
      WaitingListStatus.EXPIRED) s = waitingOf db.waitingList s :=
    waitingOf_setStatusById db.waitingList wlId WaitingListStatus.EXPIRED
      (fun hh => WaitingListStatus.noConfusion hh) hnonw
  have hd1 : denseList (setStatusById db.waitingList wlId
      WaitingListStatus.EXPIRED) e.classSessionId :=
    denseList_congr (hwOf e.classSessionId) hd
  have heEx : { e with status := WaitingListStatus.EXPIRED }
      ∈ setStatusById db.waitingList wlId WaitingListStatus.EXPIRED := by
    have h1 : (if e.id == wlId then { e with status := WaitingListStatus.EXPIRED }
        else e) ∈ setStatusById db.waitingList wlId WaitingListStatus.EXPIRED :=
      List.mem_map_of_mem _ hmem
    rw [if_pos (beq_iff_eq.mpr hide)] at h1
    exact h1
  refine ⟨rfl, ?_, ?_, ?_, ?_, ?_⟩
  · exact promote_keeps_status now 24
      (fun hh => WaitingListStatus.noConfusion hh) setStatusById_sets
  · refine ⟨{ e with status := WaitingListStatus.EXPIRED }, ?_, hide⟩
    exact promote_keeps_nonwaiting now 24 hnd1 heEx
      (fun hh => WaitingListStatus.noConfusion hh)
  · rw [promote_enrollments]
  · intro hne
    have hne1 : waitingOf (setStatusById db.waitingList wlId
        WaitingListStatus.EXPIRED) e.classSessionId ≠ [] := by
      rw [hwOf]
      exact hne
    obtain ⟨f, hhead1⟩ : ∃ f, headWaiting
        { db with waitingList := (setStatusById db.waitingList wlId
            WaitingListStatus.EXPIRED) } e.classSessionId = some f := by
      cases hh : headWaiting
          { db with waitingList := (setStatusById db.waitingList wlId
              WaitingListStatus.EXPIRED) } e.classSessionId with
      | none => exact absurd (headWaiting_none_iff.mp hh) hne1
      | some f => exact ⟨f, rfl⟩
    have hfW : f ∈ waitingOf (setStatusById db.waitingList wlId
        WaitingListStatus.EXPIRED) e.classSessionId := (headWaiting_spec hhead1).1
    have hfW' : f ∈ waitingFor db e.classSessionId := by
      rw [hwOf] at hfW
      exact hfW
    refine ⟨f, hfW', headWaiting_pos_one hd1 hhead1,
      (waitingPred_iff.mp (List.mem_filter.mp hfW').2).2, ?_, ?_⟩
    · exact ⟨assignStamp f now (now + 24 * 3600), promoted_mem now 24 hhead1, rfl, rfl⟩
    · intro x hx hxst
      rcases promote_new_assigned now 24 hhead1 x hx hxst with h1 | ⟨y, hy, hyid, hyst⟩
      · exact Or.inl h1
      · rcases setStatusById_assigned_trace hy hyst with ⟨⟨z, hz, hzid, hzst⟩, hyne⟩
        refine Or.inr ⟨⟨z, hz, hzid.trans hyid, hzst⟩, ?_⟩
        rw [← hyid]
        exact hyne
  · intro hempty
    have hempty1 : waitingOf (setStatusById db.waitingList wlId
        WaitingListStatus.EXPIRED) e.classSessionId = [] := by
      rw [hwOf]
      exact hempty
    have hhd : headWaiting
        { db with waitingList := (setStatusById db.waitingList wlId
            WaitingListStatus.EXPIRED) } e.classSessionId = none :=
      headWaiting_none_iff.mpr hempty1
    rw [promote_eq_none now 24 hhd]
    intro x hx hxst
    rcases setStatusById_assigned_trace hx hxst with ⟨⟨z, hz, hzid, hzst⟩, hxne⟩
    exact ⟨⟨z, hz, hzid, hzst⟩, hxne⟩

/-- An `ASSIGNED` entry whose approval deadline (100) is in the past. -/
def entExpired : WaitingListEntry :=
  { id := 20, classSessionId := 1, memberId := 1,
    status := WaitingListStatus.ASSIGNED, position := 1, priorityScore := 100,
    createdAt := 0, assignedAt := some 10, approvalDeadline := some 100,
    confirmedAt := none, cancelledAt := none }

/-- A session with one expired `ASSIGNED` entry and one `WAITING` entry. -/
def dbExpiredAssigned : DB :=
  { sessions := [{ id := 1, status := SessionStatus.FULL }]
    members := [{ id := 1, fullname := "a" }, { id := 2, fullname := "b" }]
    enrollments := []
    subscriptions := []
    plans := []
    waitingList :=
      [entExpired,
       { id := 21, classSessionId := 1, memberId := 2,
         status := WaitingListStatus.WAITING, position := 1, priorityScore := 100,
         createdAt := 5, assignedAt := none, approvalDeadline := none,
         confirmedAt := none, cancelledAt := none }]
    nextId := 100 }

/-- Witness for C3 at a concrete database (spec Scenario C). -/
theorem confirm_expired_spec_witness :
    entExpired ∈ dbExpiredAssigned.waitingList ∧
    entExpired.status = WaitingListStatus.ASSIGNED ∧
    entExpired.approvalDeadline = some 100 ∧ (100 : Int) < 200 ∧
    (confirm_assignment dbExpiredAssigned 20 200).1
      = Except.error (AppErr.AppError
          "Approval deadline has passed. Spot has been given to next in queue.") ∧
    (∃ x ∈ (confirm_assignment dbExpiredAssigned 20 200).2.waitingList, x.id = 20) := by
  have h := confirm_expired_spec dbExpiredAssigned 20 200 100 entExpired
    (by decide) (by decide) (by decide) rfl rfl rfl (by norm_num)
  exact ⟨by decide, rfl, rfl, by norm_num, h.1, h.2.2.1⟩

/-- The database the caller observes after `add_to_waiting_list`: the new
state on success, the unchanged state on an exception (the source rolls the
transaction back, and every raise happens before any mutation). -/
def addResultState (db : DB) (classSessionId memberId : Nat) (now nowCalc : Int) : DB :=
  match add_to_waiting_list db classSessionId memberId now nowCalc with
  | .ok (db', _) => db'
  | .error _ => db

/-- C8: failure taxonomy of `add_to_waiting_list`.  Missing session →
`NotFoundError`; session closed → `AppError`; missing member →
`NotFoundError`; an existing `REGISTERED` enrollment → `DuplicateError`; an
existing `WAITING`/`ASSIGNED` entry → `DuplicateError`; in every failure case
the observable database is unchanged; and when none of the five conditions
holds the call succeeds. -/
theorem add_failure_spec (db : DB) (sid mid : Nat) (now nowCalc : Int) :
    (db.sessions.find? (fun s => s.id == sid) = none →
      add_to_waiting_list db sid mid now nowCalc
        = Except.error (AppErr.NotFoundError "Class session not found")) ∧
    (∀ cs, db.sessions.find? (fun s => s.id == sid) = some cs →
      cs.status = SessionStatus.CLOSED →
      add_to_waiting_list db sid mid now nowCalc
        = Except.error (AppErr.AppError "Session registration is closed")) ∧
    (∀ cs, db.sessions.find? (fun s => s.id == sid) = some cs →
      cs.status ≠ SessionStatus.CLOSED →
      db.members.find? (fun m => m.id == mid) = none →
      add_to_waiting_list db sid mid now nowCalc
        = Except.error (AppErr.NotFoundError "Member not found")) ∧
    (∀ cs m, db.sessions.find? (fun s => s.id == sid) = some cs →
      cs.status ≠ SessionStatus.CLOSED →
      db.members.find? (fun mm => mm.id == mid) = some m →
      (db.enrollments.find? (fun en =>
          en.classSessionId == sid && en.memberId == mid &&
          en.status == EnrollmentStatus.REGISTERED)).isSome = true →
      add_to_waiting_list db sid mid now nowCalc
        = Except.error (AppErr.DuplicateError
            "Member is already enrolled in this session")) ∧
    (∀ cs m, db.sessions.find? (fun s => s.id == sid) = some cs →
      cs.status ≠ SessionStatus.CLOSED →
      db.members.find? (fun mm => mm.id == mid) = some m →
      db.enrollments.find? (fun en =>
          en.classSessionId == sid && en.memberId == mid &&
          en.status == EnrollmentStatus.REGISTERED) = none →
      (db.waitingList.find? (fun w =>
          w.classSessionId == sid && w.memberId == mid &&
          (w.status == WaitingListStatus.WAITING ||
           w.status == WaitingListStatus.ASSIGNED))).isSome = true →
      add_to_waiting_list db sid mid now nowCalc
        = Except.error (AppErr.DuplicateError
            "Member is already on the waiting list")) ∧
    (∀ err, add_to_waiting_list db sid mid now nowCalc = Except.error err →
      addResultState db sid mid now nowCalc = db) ∧
    (∀ cs m, db.sessions.find? (fun s => s.id == sid) = some cs →
      cs.status ≠ SessionStatus.CLOSED →
      db.members.find? (fun mm => mm.id == mid) = some m →
      db.enrollments.find? (fun en =>
          en.classSessionId == sid && en.memberId == mid &&
          en.status == EnrollmentStatus.REGISTERED) = none →
      db.waitingList.find? (fun w =>
          w.classSessionId == sid && w.memberId == mid &&
          (w.status == WaitingListStatus.WAITING ||
           w.status == WaitingListStatus.ASSIGNED)) = none →
      add_to_waiting_list db sid mid now nowCalc
        = Except.ok (addInsert db sid mid now nowCalc)) := by
  refine ⟨?_, ?_, ?_, ?_, ?_, ?_, ?_⟩
  · intro h
    unfold add_to_waiting_list
    rw [h]
  · intro cs h hcl
    unfold add_to_waiting_list
    simp only [h]
    rw [if_pos (beq_iff_eq.mpr hcl)]
  · intro cs h hcl hm
    unfold add_to_waiting_list
    simp only [h, hm]
    rw [if_neg (by simp [beq_eq_false_iff_ne.mpr hcl])]
  · intro cs m h hcl hm hen
    unfold add_to_waiting_list
    simp only [h, hm]
    rw [if_neg (by simp [beq_eq_false_iff_ne.mpr hcl]), if_pos hen]
  · intro cs m h hcl hm hen hwl
    unfold add_to_waiting_list
    simp only [h, hm]
    rw [if_neg (by simp [beq_eq_false_iff_ne.mpr hcl]),
      if_neg (by rw [hen]; simp), if_pos hwl]
  · intro err herr
    unfold addResultState
    rw [herr]
  · intro cs m h hcl hm hen hwl
    unfold add_to_waiting_list
    simp only [h, hm]
    rw [if_neg (by simp [beq_eq_false_iff_ne.mpr hcl]),
      if_neg (by rw [hen]; simp), if_neg (by rw [hwl]; simp)]

/-- Witness for C8: a missing session id fails with `NotFoundError` and
leaves the database unchanged. -/
theorem add_failure_spec_witness :
    dbTwoWaiting.sessions.find? (fun s => s.id == 99) = none ∧
    add_to_waiting_list dbTwoWaiting 99 1 0 0
      = Except.error (AppErr.NotFoundError "Class session not found") ∧
    addResultState dbTwoWaiting 99 1 0 0 = dbTwoWaiting := by
  have h := add_failure_spec dbTwoWaiting 99 1 0 0
  have h1 : dbTwoWaiting.sessions.find? (fun s => s.id == 99) = none := by decide
  have h2 := h.1 h1
  exact ⟨h1, h2, h.2.2.2.2.2.1 _ h2⟩

theorem insertByPos_perm (e : WaitingListEntry) (l : List WaitingListEntry) :
    (insertByPos e l).Perm (e :: l) := by
  induction l with
  | nil => exact List.Perm.refl _
  | cons x xs ih =>
    unfold insertByPos
    split
    · exact List.Perm.refl _
    · exact (ih.cons x).trans (List.Perm.swap e x xs)

theorem sortByPos_fold_perm (l acc : List WaitingListEntry) :
    (l.foldl (fun acc e => insertByPos e acc) acc).Perm (l ++ acc) := by
  induction l generalizing acc with
  | nil => exact List.Perm.refl _
  | cons x xs ih =>
    rw [List.foldl_cons]
    refine (ih (insertByPos x acc)).trans ?_
    have h1 : (xs ++ insertByPos x acc).Perm (xs ++ (x :: acc)) :=
      List.Perm.append_left xs (insertByPos_perm x acc)
    exact h1.trans List.perm_middle

theorem sortByPos_perm (l : List WaitingListEntry) : (sortByPos l).Perm l := by
  have h := sortByPos_fold_perm l []
  rw [List.append_nil] at h
  exact h

theorem insertByPos_pairwise (e : WaitingListEntry) (l : List WaitingListEntry)
    (h : List.Pairwise (fun a b => a.position ≤ b.position) l) :
    List.Pairwise (fun a b => a.position ≤ b.position) (insertByPos e l) := by
  induction l with
  | nil => exact List.pairwise_singleton _ _
  | cons x xs ih =>
    rcases List.pairwise_cons.mp h with ⟨hx, hxs⟩
    unfold insertByPos
    split
    · rename_i hlt
      refine List.pairwise_cons.mpr ⟨?_, h⟩
      intro b hb
      rcases List.mem_cons.mp hb with rfl | hb'
      · exact le_of_lt hlt
      · exact le_trans (le_of_lt hlt) (hx b hb')
    · rename_i hge
      refine List.pairwise_cons.mpr ⟨?_, ih hxs⟩
      intro b hb
      have hb' : b ∈ e :: xs := (insertByPos_perm e xs).mem_iff.mp hb
      rcases List.mem_cons.mp hb' with rfl | hb''
      · exact not_lt.mp hge
      · exact hx b hb''

theorem sortByPos_fold_pairwise (l acc : List WaitingListEntry)
    (hacc : List.Pairwise (fun a b => a.position ≤ b.position) acc) :
    List.Pairwise (fun a b => a.position ≤ b.position)
      (l.foldl (fun acc e => insertByPos e acc) acc) := by
  induction l generalizing acc with
  | nil => exact hacc
  | cons x xs ih =>
    rw [List.foldl_cons]
    exact ih (insertByPos x acc) (insertByPos_pairwise x acc hacc)

theorem sortByPos_pairwise (l : List WaitingListEntry) :
    List.Pairwise (fun a b => a.position ≤ b.position) (sortByPos l) :=
  sortByPos_fold_pairwise l [] List.Pairwise.nil

/-- C9 counterexample: on a concrete session holding one `ASSIGNED` and one
`WAITING` entry, `get_waiting_list` returns a single flat list that contains
the `ASSIGNED` entry inline (ordered by its stale position) rather than the
`WAITING` entries with the `ASSIGNED` entry reported separately. -/
theorem get_waiting_list_counterexample :
    (get_waiting_list dbExpiredAssigned 1 3600).map (fun v => v.status)
      = [WaitingListStatus.ASSIGNED, WaitingListStatus.WAITING] ∧
    ∃ v ∈ get_waiting_list dbExpiredAssigned 1 3600,
      v.status = WaitingListStatus.ASSIGNED := by
  refine ⟨by decide, by decide⟩

/-- C9 amended: `get_waiting_list` returns, in one flat list, every entry of
the session (any status, `ASSIGNED` and terminal entries included inline)
joined to an existing member, ordered by `position` ascending, and each row
carries `waitingHours = (now - createdAt) / 3600`. -/
theorem get_waiting_list_spec (db : DB) (sid : Nat) (now : Int) :
    List.Pairwise (fun a b => a.position ≤ b.position)
      (get_waiting_list db sid now) ∧
    (get_waiting_list db sid now).Perm
      ((db.waitingList.filter (fun e => e.classSessionId == sid)).filterMap
        (fun e => (db.members.find? (fun m => m.id == e.memberId)).map (viewOf now e))) ∧
    (∀ v ∈ get_waiting_list db sid now,
      v.waitingHours = ((now - v.createdAt : Int) : Rat) / 3600) := by
  refine ⟨?_, ?_, ?_⟩
  · unfold get_waiting_list
    rw [List.pairwise_filterMap]
    apply List.Pairwise.imp _
      (sortByPos_pairwise (db.waitingList.filter (fun e => e.classSessionId == sid)))
    intro a a' hle b hb b' hb'
    rcases Option.map_eq_some'.mp hb with ⟨m, _, rfl⟩
    rcases Option.map_eq_some'.mp hb' with ⟨m', _, rfl⟩
    exact hle
  · unfold get_waiting_list
    exact List.Perm.filterMap _
      (sortByPos_perm (db.waitingList.filter (fun e => e.classSessionId == sid)))
  · intro v hv
    unfold get_waiting_list at hv
    rcases List.mem_filterMap.mp hv with ⟨e, _, hfe⟩
    rcases Option.map_eq_some'.mp hfe with ⟨m, _, rfl⟩
    rfl

theorem foldl_min_le_mem {l : List Int} {start : Int} :
    ∀ x ∈ l, l.foldl min start ≤ x := by
  induction l generalizing start with
  | nil => intro x hx; cases hx
  | cons y ys ih =>
    intro x hx
    rcases List.mem_cons.mp hx with rfl | hx'
    · exact le_trans (foldl_min_le_init ys (min start x)) (min_le_right start x)
    · exact ih x hx'

theorem posList_nodup (n : Nat) : (posList n).Nodup := by
  induction n with
  | zero => exact List.nodup_nil
  | succ m ih =>
    rw [posList_succ_append, List.nodup_append]
    refine ⟨ih, List.nodup_singleton _, ?_⟩
    intro a ha
    have hb := (mem_posList.mp ha).2
    simp only [List.mem_singleton]
    intro hcontra
    omega

theorem dense_positions_nodup {l : List WaitingListEntry} {sid : Nat}
    (hd : denseList l sid) :
    ((waitingOf l sid).map (fun e => e.position)).Nodup :=
  hd.nodup_iff.mpr (posList_nodup _)

theorem matchCond_iff {score now : Int} {e : WaitingListEntry} :
    matchCond score now e = true ↔
      e.priorityScore < score ∨
        (score = e.priorityScore ∧ now < e.createdAt) := by
  simp only [matchCond, Bool.or_eq_true, Bool.and_eq_true, decide_eq_true_eq,
    beq_iff_eq, gt_iff_lt]

theorem find?_sorted_min {p : WaitingListEntry → Bool} :
    ∀ {l : List WaitingListEntry},
      List.Pairwise (fun a b => a.position ≤ b.position) l →
      ∀ {e0 : WaitingListEntry}, l.find? p = some e0 →
      ∀ x ∈ l, p x = true → e0.position ≤ x.position := by
  intro l
  induction l with
  | nil =>
    intro _ e0 hf
    cases hf
  | cons a as ih =>
    intro hp e0 hf x hx hpx
    rcases List.pairwise_cons.mp hp with ⟨ha, has⟩
    by_cases hpa : p a = true
    · rw [@List.find?_cons_of_pos _ p a as hpa] at hf
      have he0 : e0 = a := (Option.some_inj.mp hf).symm
      subst he0
      rcases List.mem_cons.mp hx with rfl | hx'
      · exact le_refl _
      · exact ha x hx'
    · rw [@List.find?_cons_of_neg _ p a as hpa] at hf
      rcases List.mem_cons.mp hx with rfl | hx'
      · exact absurd hpx hpa
      · exact ih has hf x hx' hpx

theorem shiftEntry_eq_of_pred {sid : Nat} {fp : Int} {e : WaitingListEntry}
    (h : waitingPred sid e = true) :
    shiftEntry sid fp e
      = if fp ≤ e.position then { e with position := e.position + 1 } else e := by
  rcases waitingPred_iff.mp h with ⟨h1, h2⟩
  unfold shiftEntry
  by_cases hfp : fp ≤ e.position
  · rw [if_pos (by simp [h1, h2, ge_iff_le, hfp]), if_pos hfp]
  · rw [if_neg (by simp [ge_iff_le, hfp]), if_neg hfp]

/-- Modelled from the spec's words (refinement target for C4): the insertion
rank is the position of the first entry — in the position-ascending ordering
of the session's `WAITING` entries — whose `priorityScore` is strictly lower
than the new score, or whose score is equal and whose `createdAt` is strictly
later; when no such entry exists the rank is N + 1 (the end of the queue). -/
def specInsertionRank (ws : List WaitingListEntry) (score now : Int) : Int :=
  match (sortByPos ws).find? (matchCond score now) with
  | some e => e.position
  | none => (ws.length : Int) + 1

/-- The ordering invariant of spec section 3: among the `WAITING` entries of a
session, a strictly higher `priorityScore` means a strictly lower `position`,
and among equal scores a strictly earlier `createdAt` means a strictly lower
`position`. -/
def orderedByPriority (ws : List WaitingListEntry) : Prop :=
  ∀ e1 ∈ ws, ∀ e2 ∈ ws,
    (e2.priorityScore < e1.priorityScore → e1.position < e2.position) ∧
    (e1.priorityScore = e2.priorityScore → e1.createdAt < e2.createdAt →
      e1.position < e2.position)

instance (ws : List WaitingListEntry) : Decidable (orderedByPriority ws) := by
  unfold orderedByPriority
  infer_instance

theorem addFinalPosition_eq_specRank (db : DB) (sid mid : Nat) (now nowCalc : Int)
    (hd : denseList db.waitingList sid) :
    addFinalPosition db sid mid now nowCalc
      = specInsertionRank (waitingFor db sid) (addScore db mid now nowCalc) now := by
  unfold addFinalPosition specInsertionRank
  rw [finalPositionFold_eq_foldl_min]
  cases hfind : (sortByPos (waitingFor db sid)).find?
      (matchCond (addScore db mid now nowCalc) now) with
  | none =>
    have hM : (waitingFor db sid).filter
        (matchCond (addScore db mid now nowCalc) now) = [] := by
      apply List.filter_eq_nil_iff.mpr
      intro e he hpe
      have he' : e ∈ sortByPos (waitingFor db sid) :=
        (sortByPos_perm (waitingFor db sid)).mem_iff.mpr he
      exact List.find?_eq_none.mp hfind e he' hpe
    rw [hM]
    rfl
  | some e0 =>
    have hpe0 : matchCond (addScore db mid now nowCalc) now e0 = true :=
      List.find?_some hfind
    have he0 : e0 ∈ waitingFor db sid :=
      (sortByPos_perm (waitingFor db sid)).mem_iff.mp
        (List.mem_of_find?_eq_some hfind)
    show _ = e0.position
    apply foldl_min_eq_of_mem
    · exact List.mem_map_of_mem _ (List.mem_filter.mpr ⟨he0, hpe0⟩)
    · intro x hx
      rcases List.mem_map.mp hx with ⟨y, hy, rfl⟩
      have hyw : y ∈ waitingFor db sid := (List.mem_filter.mp hy).1
      have hpy := (List.mem_filter.mp hy).2
      have hys : y ∈ sortByPos (waitingFor db sid) :=
        (sortByPos_perm (waitingFor db sid)).mem_iff.mpr hyw
      exact find?_sorted_min (sortByPos_pairwise (waitingFor db sid)) hfind y hys hpy
    · have hb := (dense_pos_mem hd he0).2
      have hlen : (waitingFor db sid).length
          = (waitingOf db.waitingList sid).length := rfl
      omega

/-- A dense but priority-unsorted queue: the position-1 entry has the lower
score.  (Such a state satisfies the glossary's dense-position invariant but
not the section-3 ordering.) -/
def dbUnsorted : DB :=
  { sessions := [{ id := 1, status := SessionStatus.OPEN }]
    members := [{ id := 1, fullname := "a" }, { id := 2, fullname := "b" },
                { id := 3, fullname := "c" }]
    enrollments := []
    subscriptions := [{ memberId := 3, planId := 7,
                        status := SubscriptionStatus.ACTIVE }]
    plans := [{ id := 7, planType := PlanType.MONTHLY }]
    waitingList :=
      [{ id := 10, classSessionId := 1, memberId := 1,
         status := WaitingListStatus.WAITING, position := 1, priorityScore := 50,
         createdAt := 0, assignedAt := none, approvalDeadline := none,
         confirmedAt := none, cancelledAt := none },
       { id := 11, classSessionId := 1, memberId := 2,
         status := WaitingListStatus.WAITING, position := 2, priorityScore := 100,
         createdAt := 0, assignedAt := none, approvalDeadline := none,
         confirmedAt := none, cancelledAt := none }]
    nextId := 100 }

/-- C4 counterexample: on a dense but priority-unsorted queue (which the
claim's hypothesis — the dense-position invariant alone — admits), a
successful `add` leaves two equal-score entries where the one with the
strictly earlier `createdAt` has the strictly higher position, refuting the
claim's "among equal scores the earlier createdAt always has the lower
position". -/
theorem add_insertion_counterexample :
    denseQueue dbUnsorted 1 ∧
    (add_to_waiting_list dbUnsorted 1 3 1000 1000).isOk = true ∧
    ∃ x1 ∈ waitingFor (addResultState dbUnsorted 1 3 1000 1000) 1,
      ∃ x2 ∈ waitingFor (addResultState dbUnsorted 1 3 1000 1000) 1,
        x1.priorityScore = x2.priorityScore ∧ x1.createdAt < x2.createdAt ∧
          x2.position < x1.position := by
  refine ⟨by decide, by decide, by decide⟩

/-- C4 amended: for a successful `add_to_waiting_list` on a well-formed
database whose queue for the session is dense, the new entry's position is
the spec's insertion rank (immediately before the first `WAITING` entry — in
position order — with a strictly lower `priorityScore`, or an equal score and
a strictly later `createdAt`; end of queue when none); every entry at or
after that rank shifts down by exactly one and the rest are untouched; a new
entry whose score strictly exceeds every current entry's gets position 1; and
the "among equal scores the earlier `createdAt` has the lower position"
corollary holds provided the existing queue is additionally ordered by
priority (descending score, ascending `createdAt` on ties) — density alone
does not imply it. -/
theorem add_insertion_spec (db : DB) (sid mid : Nat) (now nowCalc : Int)
    (hd : denseQueue db sid) (db' : DB) (w : WaitingListEntry)
    (hok : add_to_waiting_list db sid mid now nowCalc = Except.ok (db', w)) :
    w.position = specInsertionRank (waitingFor db sid)
        (calculate_priority_score db mid now nowCalc) now ∧
    waitingFor db' sid
      = (waitingFor db sid).map
          (fun e => if w.position ≤ e.position then
            { e with position := e.position + 1 } else e)
        ++ [w] ∧
    ((∀ e ∈ waitingFor db sid,
        e.priorityScore < calculate_priority_score db mid now nowCalc) →
      w.position = 1) ∧
    (orderedByPriority (waitingFor db sid) →
      ∀ x1 ∈ waitingFor db' sid, ∀ x2 ∈ waitingFor db' sid,
        x1.priorityScore = x2.priorityScore → x1.createdAt < x2.createdAt →
          x1.position < x2.position) := by
  rcases add_ok_inv hok with ⟨rfl, rfl⟩
  have hfpRank := addFinalPosition_eq_specRank db sid mid now nowCalc hd
  have hbEq : waitingFor (addInsert db sid mid now nowCalc).1 sid
      = (waitingFor db sid).map
          (fun e => if addFinalPosition db sid mid now nowCalc ≤ e.position then
            { e with position := e.position + 1 } else e)
        ++ [addNewEntry db sid mid now nowCalc] := by
    show waitingOf (addInsert db sid mid now nowCalc).1.waitingList sid = _
    rw [waitingOf_addInsert_self]
    have hmapc : (waitingOf db.waitingList sid).map
        (shiftEntry sid (addFinalPosition db sid mid now nowCalc))
        = (waitingOf db.waitingList sid).map
            (fun e => if addFinalPosition db sid mid now nowCalc ≤ e.position then
              { e with position := e.position + 1 } else e) :=
      List.map_congr_left
        (fun e he => shiftEntry_eq_of_pred (List.mem_filter.mp he).2)
    rw [hmapc]
    rfl
  have hmatchle : ∀ e ∈ waitingFor db sid,
      matchCond (addScore db mid now nowCalc) now e = true →
      addFinalPosition db sid mid now nowCalc ≤ e.position := by
    intro e he hm
    unfold addFinalPosition
    rw [finalPositionFold_eq_foldl_min]
    exact foldl_min_le_mem _ (List.mem_map_of_mem _ (List.mem_filter.mpr ⟨he, hm⟩))
  have htielt : orderedByPriority (waitingFor db sid) →
      ∀ e ∈ waitingFor db sid,
        e.priorityScore = addScore db mid now nowCalc → e.createdAt < now →
        e.position < addFinalPosition db sid mid now nowCalc := by
    intro hord e he hesc hecr
    by_contra hge'
    rw [not_lt] at hge'
    have heN := (dense_pos_mem hd he).2
    have hlen : (waitingFor db sid).length
        = (waitingOf db.waitingList sid).length := rfl
    rw [hfpRank] at hge'
    unfold specInsertionRank at hge'
    cases hfind : (sortByPos (waitingFor db sid)).find?
        (matchCond (addScore db mid now nowCalc) now) with
    | none =>
      rw [hfind] at hge'
      have hge'' : ((waitingFor db sid).length : Int) + 1 ≤ e.position := hge'
      omega
    | some e0 =>
      rw [hfind] at hge'
      have hge'' : e0.position ≤ e.position := hge'
      have hpe0 := List.find?_some hfind
      have he0 : e0 ∈ waitingFor db sid :=
        (sortByPos_perm _).mem_iff.mp (List.mem_of_find?_eq_some hfind)
      have hnotm : ¬ matchCond (addScore db mid now nowCalc) now e = true := by
        rw [matchCond_iff]
        rintro (h1 | ⟨h2a, h2b⟩)
        · rw [hesc] at h1
          exact absurd h1 (lt_irrefl _)
        · exact absurd (lt_trans h2b hecr) (lt_irrefl now)
      have hne : e ≠ e0 := fun hh => hnotm (hh ▸ hpe0)
      have hposne : e.position ≠ e0.position := by
        intro hh
        exact hne (List.inj_on_of_nodup_map (dense_positions_nodup hd) he he0 hh)
      have h0lt : e0.position < e.position :=
        lt_of_le_of_ne hge'' (fun hh => hposne hh.symm)
      rcases matchCond_iff.mp hpe0 with h1 | ⟨h2a, h2b⟩
      · have := (hord e he e0 he0).1 (by rw [hesc]; exact h1)
        omega
      · have := (hord e he e0 he0).2 (by rw [hesc, h2a]) (lt_trans hecr h2b)
        omega
  refine ⟨hfpRank, hbEq, ?_, ?_⟩
  · intro hall
    have hMeq : (waitingFor db sid).filter
        (matchCond (addScore db mid now nowCalc) now) = waitingFor db sid :=
      List.filter_eq_self.mpr (fun e he => matchCond_iff.mpr (Or.inl (hall e he)))
    show addFinalPosition db sid mid now nowCalc = 1
    unfold addFinalPosition
    rw [finalPositionFold_eq_foldl_min, hMeq]
    by_cases hnil : waitingFor db sid = []
    · rw [hnil]
      simp
    · have hN1 : 1 ≤ (waitingFor db sid).length := List.length_pos.mpr hnil
      have h1mem : (1 : Int) ∈ positionsOf db.waitingList sid :=
        hd.mem_iff.mpr (mem_posList.mpr ⟨le_refl 1, by exact_mod_cast hN1⟩)
      rcases List.mem_map.mp h1mem with ⟨e1, he1, hpe1⟩
      apply foldl_min_eq_of_mem
      · rw [← hpe1]
        exact List.mem_map_of_mem _ he1
      · intro x hx
        rcases List.mem_map.mp hx with ⟨y, hy, rfl⟩
        exact (dense_pos_mem hd hy).1
      · have h0 : (0 : Int) ≤ ((waitingFor db sid).length : Int) :=
          Int.ofNat_nonneg _
        omega
  · intro hord x1 hx1 x2 hx2 hsc hcr
    rw [hbEq] at hx1 hx2
    have hshift : ∀ p q : Int, p < q →
        (if addFinalPosition db sid mid now nowCalc ≤ p then p + 1 else p)
          < (if addFinalPosition db sid mid now nowCalc ≤ q then q + 1 else q) := by
      intro p q hpq
      by_cases h1 : addFinalPosition db sid mid now nowCalc ≤ p
      · rw [if_pos h1, if_pos (le_trans h1 (le_of_lt hpq))]
        omega
      · rw [if_neg h1]
        by_cases h2 : addFinalPosition db sid mid now nowCalc ≤ q
        · rw [if_pos h2]
          omega
        · rw [if_neg h2]
          exact hpq
    rcases List.mem_append.mp hx1 with hm1 | hw1
    · rcases List.mem_map.mp hm1 with ⟨e1, he1, rfl⟩
      have h1sc : (if addFinalPosition db sid mid now nowCalc ≤ e1.position then
          { e1 with position := e1.position + 1 } else e1).priorityScore
          = e1.priorityScore := by split <;> rfl
      have h1cr : (if addFinalPosition db sid mid now nowCalc ≤ e1.position then
          { e1 with position := e1.position + 1 } else e1).createdAt
          = e1.createdAt := by split <;> rfl
      have h1pos : (if addFinalPosition db sid mid now nowCalc ≤ e1.position then
          { e1 with position := e1.position + 1 } else e1).position
          = (if addFinalPosition db sid mid now nowCalc ≤ e1.position then
              e1.position + 1 else e1.position) := by split <;> rfl
      rcases List.mem_append.mp hx2 with hm2 | hw2
      · rcases List.mem_map.mp hm2 with ⟨e2, he2, rfl⟩
        have h2sc : (if addFinalPosition db sid mid now nowCalc ≤ e2.position then
            { e2 with position := e2.position + 1 } else e2).priorityScore
            = e2.priorityScore := by split <;> rfl
        have h2cr : (if addFinalPosition db sid mid now nowCalc ≤ e2.position then
            { e2 with position := e2.position + 1 } else e2).createdAt
            = e2.createdAt := by split <;> rfl
        have h2pos : (if addFinalPosition db sid mid now nowCalc ≤ e2.position then
            { e2 with position := e2.position + 1 } else e2).position
            = (if addFinalPosition db sid mid now nowCalc ≤ e2.position then
                e2.position + 1 else e2.position) := by split <;> rfl
        rw [h1sc, h2sc] at hsc
        rw [h1cr, h2cr] at hcr
        rw [h1pos, h2pos]
        exact hshift _ _ ((hord e1 he1 e2 he2).2 hsc hcr)
      · rcases List.mem_singleton.mp hw2 with rfl
        have h2sc : (addNewEntry db sid mid now nowCalc).priorityScore
            = addScore db mid now nowCalc := rfl
        have h2cr : (addNewEntry db sid mid now nowCalc).createdAt = now := rfl
        have h2pos : (addNewEntry db sid mid now nowCalc).position
            = addFinalPosition db sid mid now nowCalc := rfl
        rw [h1sc, h2sc] at hsc
        rw [h1cr, h2cr] at hcr
        rw [h1pos, h2pos]
        have hlt := htielt hord e1 he1 hsc hcr
        rw [if_neg (not_le.mpr hlt)]
        exact hlt
    · rcases List.mem_singleton.mp hw1 with rfl
      have h1sc : (addNewEntry db sid mid now nowCalc).priorityScore
          = addScore db mid now nowCalc := rfl
      have h1cr : (addNewEntry db sid mid now nowCalc).createdAt = now := rfl
      have h1pos : (addNewEntry db sid mid now nowCalc).position
          = addFinalPosition db sid mid now nowCalc := rfl
      rcases List.mem_append.mp hx2 with hm2 | hw2
      · rcases List.mem_map.mp hm2 with ⟨e2, he2, rfl⟩
        have h2sc : (if addFinalPosition db sid mid now nowCalc ≤ e2.position then
            { e2 with position := e2.position + 1 } else e2).priorityScore
            = e2.priorityScore := by split <;> rfl
        have h2cr : (if addFinalPosition db sid mid now nowCalc ≤ e2.position then
            { e2 with position := e2.position + 1 } else e2).createdAt
            = e2.createdAt := by split <;> rfl
        have h2pos : (if addFinalPosition db sid mid now nowCalc ≤ e2.position then
            { e2 with position := e2.position + 1 } else e2).position
            = (if addFinalPosition db sid mid now nowCalc ≤ e2.position then
                e2.position + 1 else e2.position) := by split <;> rfl
        rw [h1sc, h2sc] at hsc
        rw [h1cr, h2cr] at hcr
        rw [h1pos, h2pos]
        have hm : matchCond (addScore db mid now nowCalc) now e2 = true :=
          matchCond_iff.mpr (Or.inr ⟨hsc, hcr⟩)
        have hle := hmatchle e2 he2 hm
        rw [if_pos hle]
        omega
      · rcases List.mem_singleton.mp hw2 with rfl
        have h1cr : (addNewEntry db sid mid now nowCalc).createdAt = now := rfl
        rw [h1cr] at hcr
        exact absurd hcr (lt_irrefl _)

/-- The database after adding member 3 to the concrete two-entry queue. -/
def dbAfterAdd : DB := (addInsert dbTwoWaiting 1 3 1000 1000).1

/-- The entry created by that concrete add. -/
def entAfterAdd : WaitingListEntry := (addInsert dbTwoWaiting 1 3 1000 1000).2

/-- Witness for the amended C4 at a concrete database. -/
theorem add_insertion_spec_witness :
    denseQueue dbTwoWaiting 1 ∧
    add_to_waiting_list dbTwoWaiting 1 3 1000 1000
      = Except.ok (dbAfterAdd, entAfterAdd) ∧
    (entAfterAdd.position = specInsertionRank (waitingFor dbTwoWaiting 1)
        (calculate_priority_score dbTwoWaiting 3 1000 1000) 1000 ∧
     waitingFor dbAfterAdd 1
       = (waitingFor dbTwoWaiting 1).map
           (fun e => if entAfterAdd.position ≤ e.position then
             { e with position := e.position + 1 } else e)
         ++ [entAfterAdd] ∧
     ((∀ e ∈ waitingFor dbTwoWaiting 1,
         e.priorityScore < calculate_priority_score dbTwoWaiting 3 1000 1000) →
       entAfterAdd.position = 1) ∧
     (orderedByPriority (waitingFor dbTwoWaiting 1) →
       ∀ x1 ∈ waitingFor dbAfterAdd 1, ∀ x2 ∈ waitingFor dbAfterAdd 1,
         x1.priorityScore = x2.priorityScore → x1.createdAt < x2.createdAt →
           x1.position < x2.position)) :=
  ⟨by decide, rfl,
   add_insertion_spec dbTwoWaiting 1 3 1000 1000 (by decide)
     dbAfterAdd entAfterAdd rfl⟩

end FitTrack
